import Mathlib

/-
Verification of a separate-chaining hash map (`rehash`, src/lib.rs).

The Rust code is embedded shallowly:
  * `HashMap K V` mirrors `struct HashMap<K, V> { buckets: Vec<Vec<(K, V)>>, items: usize }`.
  * The `K: Hash + Eq` bound (together with the `Borrow<Q>`-style lookup
    contract, where `Q` hashes and compares identically to `K`) is modelled by
    a `HashEq` bundle: a Boolean equivalence `beq` and a `hash` function that
    is congruent along `beq`.
  * `insert` returns `Option (HashMap K V × Option V)`: the `none` result
    models the `.expect("")` panic branch (proved unreachable below).
  * Iteration mirrors `Iter::next`, which walks `(bucket, at)` indices.
-/

namespace Rehash

/-- Model of the Rust `Hash + Eq` contract for keys: a Boolean equivalence
relation `beq` (Rust `Eq`) together with a hash function that agrees on
equivalent keys (the `Hash`/`Eq` consistency contract). The hash value is a
`Nat` standing for the `u64` produced by `DefaultHasher::finish`. -/
structure HashEq (K : Type) where
  beq : K → K → Bool
  hash : K → Nat
  beq_refl : ∀ a, beq a a = true
  beq_symm : ∀ a b, beq a b = beq b a
  beq_trans : ∀ a b c, beq a b = true → beq b c = true → beq a c = true
  hash_congr : ∀ a b, beq a b = true → hash a = hash b

/-- Embedding of `struct HashMap<K, V> { buckets: Vec<Vec<(K, V)>>, items: usize }`. -/
structure HashMap (K V : Type) where
  buckets : List (List (K × V))
  items : Nat

/-- Embedding of `const INITIAL_BUCKETS: usize = 1;`. -/
def INITIAL_BUCKETS : Nat := 1

/-- Embedding of `HashMap::new`: no buckets, zero items. -/
def new {K V : Type} : HashMap K V :=
  { buckets := [], items := 0 }

/-- Embedding of `HashMap::bucket`: `None` when there are no buckets, else
the hash of the key reduced modulo the bucket count. -/
def bucketIdx {K V : Type} (E : HashEq K) (m : HashMap K V) (key : K) : Option Nat :=
  if m.buckets.isEmpty then none
  else some (E.hash key % m.buckets.length)

/-- Embedding of the update loop inside `HashMap::insert`
(`for &mut (ref ekey, ref mut evalue) in bucket.iter_mut() ...`): scan the
bucket for an entry whose key equals the new key; when found, replace the
value in place (keeping the stored key `ekey`) and return the displaced
value together with the rewritten bucket. -/
def updateEntry {K V : Type} (E : HashEq K) (key : K) (value : V) :
    List (K × V) → Option (V × List (K × V))
  | [] => none
  | (ek, ev) :: rest =>
    if E.beq ek key then some (ev, (ek, value) :: rest)
    else (updateEntry E key value rest).map (fun r => (r.1, (ek, ev) :: r.2))

/-- Embedding of `new_buckets[bucket].push((key, value))` inside
`HashMap::resize`: the target bucket is the key's hash modulo the current
length of the new bucket array. -/
def pushEntry {K V : Type} (E : HashEq K) (bs : List (List (K × V))) (e : K × V) :
    List (List (K × V)) :=
  bs.set (E.hash e.1 % bs.length) (bs.getD (E.hash e.1 % bs.length) [] ++ [e])

/-- Embedding of `HashMap::resize`: target size is `INITIAL_BUCKETS` when
there are no buckets, else twice the bucket count; every entry of every old
bucket (drained in order) is re-hashed against the new bucket count and
pushed into the corresponding new bucket. -/
def resize {K V : Type} (E : HashEq K) (m : HashMap K V) : HashMap K V :=
  { buckets :=
      (m.buckets.flatten).foldl (pushEntry E)
        (List.replicate
          (match m.buckets.length with
            | 0 => INITIAL_BUCKETS
            | n => 2 * n) []),
    items := m.items }

/-- Embedding of the part of `HashMap::insert` after the load-factor check:
locate the bucket; update in place when the key is already present (returning
the old value), otherwise append a new entry and bump `items`. The `none`
result models the `.expect("")` panic branch. -/
def insertCore {K V : Type} (E : HashEq K) (m1 : HashMap K V) (key : K) (value : V) :
    Option (HashMap K V × Option V) :=
  match bucketIdx E m1 key with
  | none => none
  | some b =>
    match updateEntry E key value (m1.buckets.getD b []) with
    | some (old, bkt) => some ({ buckets := m1.buckets.set b bkt, items := m1.items }, some old)
    | none =>
      some ({ buckets := m1.buckets.set b (m1.buckets.getD b [] ++ [(key, value)]),
              items := m1.items + 1 }, none)

/-- Embedding of `HashMap::insert`: resize when there are no buckets or the
load factor exceeds 3/4 (`self.items > 3 * self.buckets.len() / 4`), then run
the locate/update/append part on the (possibly resized) table. -/
def insert {K V : Type} (E : HashEq K) (m : HashMap K V) (key : K) (value : V) :
    Option (HashMap K V × Option V) :=
  insertCore E
    (if m.buckets.isEmpty ∨ 3 * m.buckets.length / 4 < m.items then resize E m else m)
    key value

/-- Embedding of `HashMap::get`: locate the bucket (`None` when
uninitialized), then linearly scan it for an entry whose key is equivalent to
the query key. -/
def get {K V : Type} (E : HashEq K) (m : HashMap K V) (key : K) : Option V :=
  match bucketIdx E m key with
  | none => none
  | some b => ((m.buckets.getD b []).find? (fun e => E.beq e.1 key)).map Prod.snd

/-- Embedding of `HashMap::contains_key`: `get(key).is_some()`. -/
def containsKey {K V : Type} (E : HashEq K) (m : HashMap K V) (key : K) : Bool :=
  (get E m key).isSome

/-- Embedding of `bucket.iter().position(...)` inside `HashMap::remove`:
the index of the first entry whose key is equivalent to the query key,
paired with that entry's value (the value `swap_remove` will return). -/
def findPos {K V : Type} (E : HashEq K) (key : K) : List (K × V) → Option (Nat × V)
  | [] => none
  | (ek, ev) :: rest =>
    if E.beq ek key then some (0, ev)
    else (findPos E key rest).map (fun p => (p.1 + 1, p.2))

/-- Embedding of `Vec::swap_remove(i)`: overwrite position `i` with the last
element and pop the last element. -/
def swapRemove {α : Type} (l : List α) (i : Nat) : List α :=
  match l.getLast? with
  | none => l
  | some last => (l.set i last).dropLast

/-- Embedding of `HashMap::remove`: locate the bucket (`None` when
uninitialized), find the matching entry's position, decrement `items` and
`swap_remove` it; the untouched map is returned alongside `None` when the
key is absent. -/
def remove {K V : Type} (E : HashEq K) (m : HashMap K V) (key : K) :
    HashMap K V × Option V :=
  match bucketIdx E m key with
  | none => (m, none)
  | some b =>
    match findPos E key (m.buckets.getD b []) with
    | none => (m, none)
    | some (i, v) =>
      ({ buckets := m.buckets.set b (swapRemove (m.buckets.getD b []) i),
         items := m.items - 1 }, some v)

/-- Embedding of `HashMap::len`: the maintained `items` counter. -/
def len {K V : Type} (m : HashMap K V) : Nat :=
  m.items

/-- Embedding of `HashMap::is_empty`. -/
def isEmptyMap {K V : Type} (m : HashMap K V) : Bool :=
  m.items == 0

/-- Embedding of the run of the iterator (`Iter::next` called to
exhaustion from state `(bucket, at)`): when the bucket index is past the end,
stop; when the current bucket still has an entry at `at`, yield it and
advance `at`; otherwise move to the next bucket with `at = 0` (the `continue`
branch of the loop in `Iter::next`). -/
def iterFrom {K V : Type} (bs : List (List (K × V))) (b a : Nat) : List (K × V) :=
  match hb : bs[b]? with
  | none => []
  | some bkt =>
    match ha : bkt[a]? with
    | some e => e :: iterFrom bs b (a + 1)
    | none => iterFrom bs (b + 1) 0
termination_by (bs.length - b, (bs.getD b []).length - a)
decreasing_by
· apply Prod.Lex.right
  have hbkt : bs.getD b [] = bkt := by
    simp [List.getD_eq_getElem?_getD, hb]
  have ha2 : a < bkt.length := (List.getElem?_eq_some.mp ha).1
  rw [hbkt]
  omega
· apply Prod.Lex.left
  have h1 : b < bs.length := (List.getElem?_eq_some.mp hb).1
  omega

/-- The full iteration of a map: `(&map).into_iter()` starts at bucket 0,
position 0. -/
def toList {K V : Type} (m : HashMap K V) : List (K × V) :=
  iterFrom m.buckets 0 0

/-- Sequencing of inserts (used to state the distinct-keys length law and
the iteration round trip). -/
def insertAll {K V : Type} (E : HashEq K) (m : HashMap K V) :
    List (K × V) → Option (HashMap K V)
  | [] => some m
  | (k, v) :: rest =>
    match insert E m k v with
    | none => none
    | some (m1, _) => insertAll E m1 rest

/-- All entries of the map, bucket 0 first, each bucket front to back. -/
def entries {K V : Type} (m : HashMap K V) : List (K × V) :=
  m.buckets.flatten

/-- Model lookup: the value of the first entry of `l` whose key is
equivalent to `key`. -/
def findVal {K V : Type} (E : HashEq K) (key : K) (l : List (K × V)) : Option V :=
  (l.find? (fun e => E.beq e.1 key)).map Prod.snd

/-- No two entries of the bucket have equivalent keys. -/
def BucketOk {K V : Type} (E : HashEq K) (bkt : List (K × V)) : Prop :=
  List.Pairwise (fun e f => E.beq e.1 f.1 = false) bkt

/-- Home-bucket property of a bucket array: every entry of every bucket sits
at the index given by its key's hash modulo the bucket count. -/
def Spread {K V : Type} (E : HashEq K) (bs : List (List (K × V))) : Prop :=
  ∀ i < bs.length, ∀ e ∈ bs.getD i [], E.hash e.1 % bs.length = i

/-- Representation invariant of the table: `items` equals the total number
of entries, every bucket has pairwise inequivalent keys, and every entry
sits in its home bucket (its key's hash modulo the bucket count). -/
def Inv {K V : Type} (E : HashEq K) (m : HashMap K V) : Prop :=
  m.items = m.buckets.flatten.length ∧
  (∀ bkt ∈ m.buckets, BucketOk E bkt) ∧
  Spread E m.buckets

/-- No two entries anywhere in the table have equivalent keys. -/
def EntriesOk {K V : Type} (E : HashEq K) (m : HashMap K V) : Prop :=
  List.Pairwise (fun e f : K × V => E.beq e.1 f.1 = false) (entries m)

/-- The states reachable through the public mutating interface (`new`,
`insert`, `remove`) and the internal `resize`. -/
inductive Reachable {K V : Type} (E : HashEq K) : HashMap K V → Prop
  | new : Reachable E new
  | insert (m m' : HashMap K V) (k : K) (v : V) (r : Option V) :
      Reachable E m → insert E m k v = some (m', r) → Reachable E m'
  | remove (m : HashMap K V) (k : K) :
      Reachable E m → Reachable E (remove E m k).1
  | resize (m : HashMap K V) :
      Reachable E m → Reachable E (resize E m)

/-- A concrete key bundle on `Nat` (identity hash), used to instantiate the
theorems on concrete tables. -/
def natE : HashEq Nat where
  beq := fun a b => a == b
  hash := fun a => a
  beq_refl := by
    intro a
    simp
  beq_symm := by
    intro a b
    rcases Nat.decEq a b with h | h
    · simp [h]
      omega
    · simp [h]
  beq_trans := by
    intro a b c h1 h2
    simp_all
  hash_congr := by
    intro a b h
    simpa using h

/-- A concrete table over `natE`: the result of inserting `0 ↦ 42` into a new
table (used to instantiate the theorems below). -/
def exMap : HashMap Nat Nat :=
  HashMap.mk [[(0, 42)]] 1

/-
List helpers: decomposing a flattened bucket array around one bucket.
-/

theorem flatten_decomp {α : Type} (bs : List (List α)) {i : Nat} (h : i < bs.length) :
    bs.flatten = (bs.take i).flatten ++ bs[i] ++ (bs.drop (i + 1)).flatten := by
  conv_lhs => rw [← List.take_append_drop i bs]
  rw [List.flatten_append, List.drop_eq_getElem_cons h, List.flatten_cons]
  simp [List.append_assoc]

theorem flatten_set {α : Type} (bs : List (List α)) {i : Nat} (x : List α)
    (h : i < bs.length) :
    (bs.set i x).flatten = (bs.take i).flatten ++ x ++ (bs.drop (i + 1)).flatten := by
  rw [List.set_eq_take_append_cons_drop]
  simp [h, List.flatten_append, List.append_assoc]

/-
Facts about the model lookup `findVal`.
-/

theorem beq_false_symm {K : Type} (E : HashEq K) {a b : K}
    (h : E.beq a b = false) : E.beq b a = false := by
  rw [E.beq_symm]; exact h

theorem beq_of_not_false {K : Type} (E : HashEq K) {a b : K}
    (h : ¬ E.beq a b = false) : E.beq a b = true := by
  cases hab : E.beq a b
  · exact absurd hab h
  · rfl

theorem findVal_eq_none {K V : Type} (E : HashEq K) (key : K) (l : List (K × V)) :
    findVal E key l = none ↔ ∀ e ∈ l, E.beq e.1 key = false := by
  simp [findVal, Option.map_eq_none', List.find?_eq_none]

theorem find?_unique {K V : Type} (E : HashEq K) (key : K) {l : List (K × V)} {x : K × V}
    (hp : List.Pairwise (fun e f => E.beq e.1 f.1 = false) l)
    (hmem : x ∈ l) (hx : E.beq x.1 key = true) :
    l.find? (fun e => E.beq e.1 key) = some x := by
  induction l with
  | nil => cases hmem
  | cons e rest ih =>
    rcases List.pairwise_cons.mp hp with ⟨he, hrest⟩
    rcases List.mem_cons.mp hmem with rfl | hmem2
    · simp [List.find?_cons, hx]
    · have hek : E.beq e.1 key = false := by
        by_contra hcon
        have h1 : E.beq e.1 key = true := beq_of_not_false E hcon
        have h2 : E.beq key x.1 = true := by rw [E.beq_symm]; exact hx
        have h3 : E.beq e.1 x.1 = true := E.beq_trans _ _ _ h1 h2
        rw [he x hmem2] at h3
        cases h3
      rw [List.find?_cons]
      simp only [hek]
      exact ih hrest hmem2

theorem findVal_eq_some_of_mem {K V : Type} (E : HashEq K) {key k0 : K} {v : V}
    {l : List (K × V)}
    (hp : List.Pairwise (fun e f => E.beq e.1 f.1 = false) l)
    (hmem : (k0, v) ∈ l) (hk : E.beq k0 key = true) :
    findVal E key l = some v := by
  have h := find?_unique E key hp hmem hk
  simp [findVal, h]

theorem findVal_some_elim {K V : Type} (E : HashEq K) {key : K} {v : V}
    {l : List (K × V)} (h : findVal E key l = some v) :
    ∃ k0, E.beq k0 key = true ∧ (k0, v) ∈ l := by
  rcases Option.map_eq_some'.mp h with ⟨e, hfind, hsnd⟩
  have hpe := List.find?_some hfind
  have hmem := List.mem_of_find?_eq_some hfind
  rcases e with ⟨ek, ev⟩
  cases hsnd
  exact ⟨ek, by simpa using hpe, hmem⟩

theorem findVal_mem_iff {K V : Type} (E : HashEq K) {key : K} {v : V}
    {l : List (K × V)}
    (hp : List.Pairwise (fun e f => E.beq e.1 f.1 = false) l) :
    findVal E key l = some v ↔ ∃ k0, E.beq k0 key = true ∧ (k0, v) ∈ l := by
  constructor
  · exact findVal_some_elim E
  · rintro ⟨k0, hk, hmem⟩
    exact findVal_eq_some_of_mem E hp hmem hk

theorem findVal_perm {K V : Type} (E : HashEq K) (key : K) {l l' : List (K × V)}
    (hp : List.Pairwise (fun e f => E.beq e.1 f.1 = false) l)
    (hperm : l.Perm l') :
    findVal E key l = findVal E key l' := by
  have hp' : List.Pairwise (fun e f : K × V => E.beq e.1 f.1 = false) l' :=
    (hperm.pairwise_iff (fun hxy => beq_false_symm E hxy)).mp hp
  cases hfv : findVal E key l with
  | none =>
    symm
    rw [findVal_eq_none] at hfv ⊢
    intro e he
    exact hfv e (hperm.mem_iff.mpr he)
  | some v =>
    rcases findVal_some_elim E hfv with ⟨k0, hk, hmem⟩
    exact (findVal_eq_some_of_mem E hp' (hperm.mem_iff.mp hmem) hk).symm

/-
Bucket selection and the consequences of the representation invariant.
-/

theorem bucketIdx_eq_some {K V : Type} (E : HashEq K) (m : HashMap K V) (key : K)
    (h : m.buckets ≠ []) :
    bucketIdx E m key = some (E.hash key % m.buckets.length) := by
  simp [bucketIdx, h]

theorem bucketIdx_lt {K V : Type} (E : HashEq K) (m : HashMap K V) (key : K)
    (h : m.buckets ≠ []) :
    E.hash key % m.buckets.length < m.buckets.length :=
  Nat.mod_lt _ (List.length_pos.mpr h)

theorem mem_bucket_of_mem_entries {K V : Type} (E : HashEq K) {m : HashMap K V}
    (hs : Spread E m.buckets) {e : K × V} (he : e ∈ entries m) :
    ∃ i, ∃ h : i < m.buckets.length,
      e ∈ m.buckets[i] ∧ E.hash e.1 % m.buckets.length = i := by
  rcases List.mem_flatten.mp he with ⟨bkt, hbkt, hebkt⟩
  rcases List.getElem_of_mem hbkt with ⟨i, hi, rfl⟩
  refine ⟨i, hi, hebkt, ?_⟩
  exact hs i hi e (by rw [List.getD_eq_getElem _ _ hi]; exact hebkt)

theorem inv_entriesOk {K V : Type} (E : HashEq K) {m : HashMap K V} (h : Inv E m) :
    EntriesOk E m := by
  rcases h with ⟨-, hb, hs⟩
  rw [EntriesOk, entries, List.pairwise_flatten]
  refine ⟨fun l hl => hb l hl, ?_⟩
  rw [List.pairwise_iff_getElem]
  intro i j hi hj hij x hx y hy
  by_contra hcon
  have hxy : E.beq x.1 y.1 = true := beq_of_not_false E hcon
  have hxh : E.hash x.1 % m.buckets.length = i :=
    hs i hi x (by rw [List.getD_eq_getElem _ _ hi]; exact hx)
  have hyh : E.hash y.1 % m.buckets.length = j :=
    hs j hj y (by rw [List.getD_eq_getElem _ _ hj]; exact hy)
  have hhash := E.hash_congr _ _ hxy
  rw [hhash] at hxh
  omega

theorem get_eq_findVal {K V : Type} (E : HashEq K) {m : HashMap K V} (h : Inv E m)
    (key : K) :
    get E m key = findVal E key (entries m) := by
  by_cases hne : m.buckets = []
  · simp [get, bucketIdx, entries, hne, findVal]
  · have hlt := bucketIdx_lt E m key hne
    simp only [get, bucketIdx_eq_some E m key hne]
    have hgd : m.buckets.getD (E.hash key % m.buckets.length) [] =
        m.buckets[E.hash key % m.buckets.length] := List.getD_eq_getElem _ _ hlt
    have hben : EntriesOk E m := inv_entriesOk E h
    rcases h with ⟨-, hbk, hs⟩
    show findVal E key (m.buckets.getD (E.hash key % m.buckets.length) []) =
      findVal E key (entries m)
    cases hfv : findVal E key (m.buckets.getD (E.hash key % m.buckets.length) []) with
    | some v =>
      rcases findVal_some_elim E hfv with ⟨k0, hk, hmem⟩
      have hmem2 : (k0, v) ∈ entries m := by
        rw [hgd] at hmem
        exact List.mem_flatten.mpr ⟨_, List.getElem_mem hlt, hmem⟩
      exact (findVal_eq_some_of_mem E hben hmem2 hk).symm
    | none =>
      symm
      rw [findVal_eq_none] at hfv ⊢
      intro e he
      rcases mem_bucket_of_mem_entries E hs he with ⟨i, hi, hei, hhome⟩
      by_contra hcon
      have heq : E.beq e.1 key = true := beq_of_not_false E hcon
      have hh : E.hash e.1 = E.hash key := E.hash_congr _ _ heq
      have hib : i = E.hash key % m.buckets.length := by rw [← hhome, hh]
      subst hib
      rw [hgd] at hfv
      have := hfv e hei
      rw [heq] at this
      cases this

/-
Specifications of the bucket-level scans.
-/

theorem updateEntry_none {K V : Type} (E : HashEq K) (key : K) (value : V)
    (l : List (K × V)) :
    updateEntry E key value l = none ↔ ∀ e ∈ l, E.beq e.1 key = false := by
  induction l with
  | nil => simp [updateEntry]
  | cons e rest ih =>
    rcases e with ⟨ek, ev⟩
    cases hek : E.beq ek key with
    | true => simp [updateEntry, hek]
    | false => simp [updateEntry, hek, ih]

theorem updateEntry_some {K V : Type} (E : HashEq K) {key : K} {value : V}
    {l : List (K × V)} {old : V} {l' : List (K × V)}
    (h : updateEntry E key value l = some (old, l')) :
    ∃ l1 k0 l2, l = l1 ++ (k0, old) :: l2 ∧ l' = l1 ++ (k0, value) :: l2 ∧
      E.beq k0 key = true ∧ ∀ e ∈ l1, E.beq e.1 key = false := by
  induction l generalizing l' old with
  | nil => simp [updateEntry] at h
  | cons e rest ih =>
    rcases e with ⟨ek, ev⟩
    rw [updateEntry] at h
    cases hek : E.beq ek key with
    | true =>
      rw [if_pos hek] at h
      injection h with h2
      injection h2 with hold hl'
      exact ⟨[], ek, rest, by simp [hold], by simp [hl'], hek, by simp⟩
    | false =>
      rw [if_neg (by simp [hek])] at h
      rcases Option.map_eq_some'.mp h with ⟨⟨o2, r2⟩, hrec, heq⟩
      injection heq with hold hl'
      have hold2 : o2 = old := hold
      have hl'2 : (ek, ev) :: r2 = l' := hl'
      subst hold2
      subst hl'2
      rcases ih hrec with ⟨l1, k0, l2, hl, hl2, hk, hl1⟩
      refine ⟨(ek, ev) :: l1, k0, l2, by simp [hl], by simp [hl2], hk, ?_⟩
      intro f hf
      rcases List.mem_cons.mp hf with rfl | hf2
      · exact hek
      · exact hl1 f hf2

theorem findPos_none {K V : Type} (E : HashEq K) (key : K) (l : List (K × V)) :
    findPos E key l = none ↔ ∀ e ∈ l, E.beq e.1 key = false := by
  induction l with
  | nil => simp [findPos]
  | cons e rest ih =>
    rcases e with ⟨ek, ev⟩
    cases hek : E.beq ek key with
    | true => simp [findPos, hek]
    | false => simp [findPos, hek, ih]

theorem findPos_some {K V : Type} (E : HashEq K) {key : K} {l : List (K × V)}
    {i : Nat} {v : V} (h : findPos E key l = some (i, v)) :
    ∃ l1 k0 l2, l = l1 ++ (k0, v) :: l2 ∧ i = l1.length ∧ E.beq k0 key = true ∧
      ∀ e ∈ l1, E.beq e.1 key = false := by
  induction l generalizing i v with
  | nil => simp [findPos] at h
  | cons e rest ih =>
    rcases e with ⟨ek, ev⟩
    rw [findPos] at h
    cases hek : E.beq ek key with
    | true =>
      rw [if_pos hek] at h
      injection h with h2
      injection h2 with hi hv
      exact ⟨[], ek, rest, by simp [hv], by simp [← hi], hek, by simp⟩
    | false =>
      rw [if_neg (by simp [hek])] at h
      rcases Option.map_eq_some'.mp h with ⟨⟨i2, v2⟩, hrec, heq⟩
      injection heq with hi hv
      have hi2 : i2 + 1 = i := hi
      have hv2 : v2 = v := hv
      subst hv2
      rcases ih hrec with ⟨l1, k0, l2, hl, hilen, hk, hl1⟩
      refine ⟨(ek, ev) :: l1, k0, l2, by simp [hl], by simp [← hi2, hilen], hk, ?_⟩
      intro f hf
      rcases List.mem_cons.mp hf with rfl | hf2
      · exact hek
      · exact hl1 f hf2

theorem swapRemove_perm {α : Type} (l1 : List α) (x : α) (l2 : List α) :
    (swapRemove (l1 ++ x :: l2) l1.length).Perm (l1 ++ l2) := by
  rcases l2 with _ | ⟨y, l2'⟩
  · rw [swapRemove]
    simp only [List.getLast?_concat]
    have hset : (l1 ++ [x]).set l1.length x = l1 ++ [x] := by
      rw [List.set_eq_take_append_cons_drop]
      have hlen : l1.length < (l1 ++ [x]).length := by simp
      rw [if_pos hlen, List.take_left]
      congr 1
      have := List.drop_left (l1 ++ [x]) ([] : List α)
      simpa [List.length_append] using this
    rw [hset, List.dropLast_concat]
    simp
  · have hne : (y :: l2') ≠ [] := List.cons_ne_nil _ _
    rw [swapRemove]
    have hlast : (l1 ++ x :: y :: l2').getLast? = some ((y :: l2').getLast hne) := by
      rw [List.getLast?_append_of_ne_nil l1 (List.cons_ne_nil _ _),
        List.getLast?_cons_cons, List.getLast?_eq_getLast _ hne]
    simp only [hlast]
    have hset : (l1 ++ x :: y :: l2').set l1.length ((y :: l2').getLast hne) =
        l1 ++ (y :: l2').getLast hne :: y :: l2' := by
      rw [List.set_eq_take_append_cons_drop]
      have hlen : l1.length < (l1 ++ x :: y :: l2').length := by simp
      rw [if_pos hlen, List.take_left]
      congr 2
      have := List.drop_left (l1 ++ [x]) (y :: l2')
      rw [List.append_cons l1 x (y :: l2')]
      simpa [List.length_append] using this
    rw [hset, List.dropLast_append_of_ne_nil _ (List.cons_ne_nil _ _),
      List.dropLast_cons₂]
    apply List.Perm.append_left
    have hsplit : (y :: l2').dropLast ++ [(y :: l2').getLast hne] = y :: l2' :=
      List.dropLast_append_getLast hne
    have hperm : (((y :: l2').getLast hne) :: (y :: l2').dropLast).Perm
        ((y :: l2').dropLast ++ [(y :: l2').getLast hne]) :=
      (List.perm_append_singleton _ _).symm
    rw [hsplit] at hperm
    exact hperm

/-
Resize: length bookkeeping, preservation of the entries (up to permutation)
and of the representation invariant.
-/

theorem pushEntry_length {K V : Type} (E : HashEq K) (bs : List (List (K × V)))
    (e : K × V) : (pushEntry E bs e).length = bs.length := by
  simp [pushEntry]

theorem foldl_pushEntry_length {K V : Type} (E : HashEq K) (l : List (K × V)) :
    ∀ bs : List (List (K × V)), (l.foldl (pushEntry E) bs).length = bs.length := by
  induction l with
  | nil => intro bs; rfl
  | cons e rest ih =>
    intro bs
    rw [List.foldl_cons, ih, pushEntry_length]

theorem resize_buckets_length {K V : Type} (E : HashEq K) (m : HashMap K V) :
    (resize E m).buckets.length =
      if m.buckets.length = 0 then 1 else 2 * m.buckets.length := by
  simp only [resize]
  rw [foldl_pushEntry_length, List.length_replicate]
  cases hn : m.buckets.length with
  | zero => simp [INITIAL_BUCKETS]
  | succ n => simp

theorem resize_items {K V : Type} (E : HashEq K) (m : HashMap K V) :
    (resize E m).items = m.items := rfl

theorem resize_buckets_ne_nil {K V : Type} (E : HashEq K) (m : HashMap K V) :
    (resize E m).buckets ≠ [] := by
  rw [← List.length_pos, resize_buckets_length]
  rcases Nat.eq_zero_or_pos m.buckets.length with h0 | hpos
  · simp [h0]
  · rw [if_neg (by omega)]
    omega

theorem pushEntry_flatten {K V : Type} (E : HashEq K) (bs : List (List (K × V)))
    (e : K × V) (h : bs ≠ []) :
    (pushEntry E bs e).flatten.Perm (bs.flatten ++ [e]) := by
  have hlt : E.hash e.1 % bs.length < bs.length := Nat.mod_lt _ (List.length_pos.mpr h)
  rw [pushEntry, flatten_set _ _ hlt, List.getD_eq_getElem _ _ hlt,
    flatten_decomp bs hlt]
  simp only [List.append_assoc]
  exact List.Perm.append_left _ (List.Perm.append_left _ List.perm_append_comm)

theorem foldl_pushEntry_flatten {K V : Type} (E : HashEq K) (l : List (K × V)) :
    ∀ bs : List (List (K × V)), bs ≠ [] →
    (l.foldl (pushEntry E) bs).flatten.Perm (bs.flatten ++ l) := by
  induction l with
  | nil => intro bs _; simp
  | cons e rest ih =>
    intro bs h
    rw [List.foldl_cons]
    have h2 : pushEntry E bs e ≠ [] := by
      rw [← List.length_pos, pushEntry_length]
      exact List.length_pos.mpr h
    have hp1 := ih (pushEntry E bs e) h2
    have hp3 := (pushEntry_flatten E bs e h).append_right rest
    have heq : (bs.flatten ++ [e]) ++ rest = bs.flatten ++ e :: rest := by simp
    rw [heq] at hp3
    exact hp1.trans hp3

theorem resize_entries_perm {K V : Type} (E : HashEq K) (m : HashMap K V) :
    (entries (resize E m)).Perm (entries m) := by
  simp only [entries, resize]
  have hrep : (List.replicate
      (match m.buckets.length with
        | 0 => INITIAL_BUCKETS
        | n => 2 * n) ([] : List (K × V))) ≠ [] := by
    rw [← List.length_pos, List.length_replicate]
    cases m.buckets.length with
    | zero => simp [INITIAL_BUCKETS]
    | succ n =>
      show 0 < 2 * (n + 1)
      omega
  have h := foldl_pushEntry_flatten E m.buckets.flatten _ hrep
  have hrepf : (List.replicate
      (match m.buckets.length with
        | 0 => INITIAL_BUCKETS
        | n => 2 * n) ([] : List (K × V))).flatten = [] := by
    rw [List.flatten_eq_nil_iff]
    intro l hl
    exact (List.mem_replicate.mp hl).2
  rw [hrepf] at h
  simpa using h

theorem foldl_pushEntry_ok {K V : Type} (E : HashEq K) (l : List (K × V)) :
    ∀ bs : List (List (K × V)), bs ≠ [] →
    (∀ bkt ∈ bs, BucketOk E bkt) →
    List.Pairwise (fun e f : K × V => E.beq e.1 f.1 = false) (bs.flatten ++ l) →
    Spread E bs →
    (∀ bkt ∈ l.foldl (pushEntry E) bs, BucketOk E bkt) ∧
      Spread E (l.foldl (pushEntry E) bs) := by
  induction l with
  | nil =>
    intro bs _ hb _ hs
    exact ⟨hb, hs⟩
  | cons e rest ih =>
    intro bs hne hb hp hs
    rw [List.foldl_cons]
    have hlt : E.hash e.1 % bs.length < bs.length :=
      Nat.mod_lt _ (List.length_pos.mpr hne)
    have hcross := (List.pairwise_append.mp hp).2.2
    have hrest := (List.pairwise_append.mp hp).2.1
    apply ih
    · rw [← List.length_pos, pushEntry_length]
      exact List.length_pos.mpr hne
    · intro bkt hbkt
      rcases List.getElem_of_mem hbkt with ⟨j, hj, rfl⟩
      rw [pushEntry_length] at hj
      by_cases hbj : E.hash e.1 % bs.length = j
      · have hget : (pushEntry E bs e)[j] =
            bs.getD (E.hash e.1 % bs.length) [] ++ [e] := by
          simp only [pushEntry]
          rw [List.getElem_set, if_pos hbj]
        rw [hget]
        rw [BucketOk, List.pairwise_append]
        refine ⟨hb _ (by rw [List.getD_eq_getElem _ _ hlt]; exact List.getElem_mem hlt),
          List.pairwise_singleton _ _, ?_⟩
        intro x hx y hy
        have hxf : x ∈ bs.flatten := by
          rw [List.getD_eq_getElem _ _ hlt] at hx
          exact List.mem_flatten.mpr ⟨_, List.getElem_mem hlt, hx⟩
        rcases List.mem_singleton.mp hy with rfl
        exact hcross x hxf y (List.mem_cons_self _ _)
      · have hget : (pushEntry E bs e)[j] = bs[j] := by
          simp only [pushEntry]
          rw [List.getElem_set, if_neg hbj]
        rw [hget]
        exact hb _ (List.getElem_mem hj)
    · have hperm2 := (pushEntry_flatten E bs e hne).append_right rest
      have heq : (bs.flatten ++ [e]) ++ rest = bs.flatten ++ e :: rest := by simp
      rw [heq] at hperm2
      exact (hperm2.pairwise_iff (fun hxy => beq_false_symm E hxy)).mpr hp
    · intro i hi f hf
      have hlen : (pushEntry E bs e).length = bs.length := pushEntry_length _ _ _
      rw [hlen] at hi
      rw [hlen]
      by_cases hbi : E.hash e.1 % bs.length = i
      · have hget : (pushEntry E bs e).getD i [] =
            bs.getD (E.hash e.1 % bs.length) [] ++ [e] := by
          rw [List.getD_eq_getElem _ _ (by rw [hlen]; exact hi)]
          simp only [pushEntry]
          rw [List.getElem_set, if_pos hbi]
        rw [hget] at hf
        rcases List.mem_append.mp hf with hf1 | hf2
        · rw [← hbi]
          exact (hs _ hlt f hf1).trans hbi ▸ (hs _ hlt f hf1)
        · rcases List.mem_singleton.mp hf2 with rfl
          exact hbi
      · have hget : (pushEntry E bs e).getD i [] = bs.getD i [] := by
          rw [List.getD_eq_getElem _ _ (by rw [hlen]; exact hi)]
          simp only [pushEntry]
          rw [List.getElem_set, if_neg hbi, ← List.getD_eq_getElem _ _ hi]
        rw [hget] at hf
        exact hs i hi f hf

theorem resize_inv {K V : Type} (E : HashEq K) {m : HashMap K V}
    (hitems : m.items = m.buckets.flatten.length)
    (hok : EntriesOk E m) : Inv E (resize E m) := by
  have hrep : (List.replicate
      (match m.buckets.length with
        | 0 => INITIAL_BUCKETS
        | n => 2 * n) ([] : List (K × V))) ≠ [] := by
    rw [← List.length_pos, List.length_replicate]
    cases m.buckets.length with
    | zero => simp [INITIAL_BUCKETS]
    | succ n =>
      show 0 < 2 * (n + 1)
      omega
  have hrepf : (List.replicate
      (match m.buckets.length with
        | 0 => INITIAL_BUCKETS
        | n => 2 * n) ([] : List (K × V))).flatten = [] := by
    rw [List.flatten_eq_nil_iff]
    intro l hl
    exact (List.mem_replicate.mp hl).2
  have hmain := foldl_pushEntry_ok E m.buckets.flatten
    (List.replicate
      (match m.buckets.length with
        | 0 => INITIAL_BUCKETS
        | n => 2 * n) ([] : List (K × V)))
    hrep
    (by intro bkt hbkt; rw [(List.mem_replicate.mp hbkt).2]; exact List.Pairwise.nil)
    (by rw [hrepf]; simpa [EntriesOk, entries] using hok)
    (by intro i hi f hf
        rw [List.getD_eq_getElem _ _ hi] at hf
        rw [List.getElem_replicate] at hf
        cases hf)
  refine ⟨?_, hmain.1, hmain.2⟩
  rw [resize_items, hitems]
  exact ((resize_entries_perm E m).length_eq).symm

theorem inv_resize_of_inv {K V : Type} (E : HashEq K) {m : HashMap K V}
    (h : Inv E m) : Inv E (resize E m) :=
  resize_inv E h.1 (inv_entriesOk E h)

/-
Support for the insert and remove specifications: replacing or removing the
matching entry of a bucket.
-/

theorem bucketOk_replace {K V : Type} (E : HashEq K) {l1 l2 : List (K × V)} {k0 : K}
    {old value : V} (h : BucketOk E (l1 ++ (k0, old) :: l2)) :
    BucketOk E (l1 ++ (k0, value) :: l2) := by
  rw [BucketOk, List.pairwise_append] at h ⊢
  rcases h with ⟨h1, h2, h3⟩
  rw [List.pairwise_cons] at h2 ⊢
  refine ⟨h1, ⟨fun y hy => h2.1 y hy, h2.2⟩, ?_⟩
  intro x hx y hy
  rcases List.mem_cons.mp hy with rfl | hy2
  · exact h3 x hx (k0, old) (List.mem_cons_self _ _)
  · exact h3 x hx y (List.mem_cons.mpr (Or.inr hy2))

theorem spread_set {K V : Type} (E : HashEq K) {bs : List (List (K × V))} {b : Nat}
    (hb : b < bs.length) {newBkt : List (K × V)}
    (hkeys : ∀ e ∈ newBkt, E.hash e.1 % bs.length = b)
    (hs : Spread E bs) : Spread E (bs.set b newBkt) := by
  intro i hi f hf
  rw [List.length_set] at hi
  rw [List.length_set]
  by_cases hbi : b = i
  · subst hbi
    rw [List.getD_eq_getElem _ _ (by rw [List.length_set]; exact hi),
      List.getElem_set, if_pos rfl] at hf
    exact hkeys f hf
  · rw [List.getD_eq_getElem _ _ (by rw [List.length_set]; exact hi),
      List.getElem_set, if_neg hbi, ← List.getD_eq_getElem _ _ hi] at hf
    exact hs i hi f hf

theorem beq_false_of_target {K : Type} (E : HashEq K) {q key k0 : K}
    (hq : E.beq q key = false) (hk0 : E.beq k0 key = true) :
    E.beq k0 q = false := by
  by_contra hcon
  have h1 : E.beq k0 q = true := beq_of_not_false E hcon
  have h2 : E.beq q k0 = true := by rw [E.beq_symm]; exact h1
  have h3 : E.beq q key = true := E.beq_trans _ _ _ h2 hk0
  rw [hq] at h3
  cases h3

theorem findVal_replace {K V : Type} (E : HashEq K) {q key k0 : K} (old value : V)
    (hq : E.beq q key = false) (hk0 : E.beq k0 key = true)
    (l1 l2 : List (K × V)) :
    findVal E q (l1 ++ (k0, value) :: l2) = findVal E q (l1 ++ (k0, old) :: l2) := by
  have hk0q : E.beq k0 q = false := beq_false_of_target E hq hk0
  simp [findVal, List.find?_append, List.find?_cons, hk0q]

theorem findVal_skip_mid {K V : Type} (E : HashEq K) {q k0 : K} (value : V)
    (hmid : E.beq k0 q = false) (l1 l2 : List (K × V)) :
    findVal E q (l1 ++ (k0, value) :: l2) = findVal E q (l1 ++ l2) := by
  simp [findVal, List.find?_append, List.find?_cons, hmid]

/-
Specification of `insertCore` on a table satisfying the invariant whose
bucket array is nonempty: the update case and the append case.
-/

theorem insertCore_found {K V : Type} (E : HashEq K) {m1 : HashMap K V} {key : K}
    (value : V) {v1 : V} (hInv : Inv E m1) (hne : m1.buckets ≠ [])
    (hfv : findVal E key (entries m1) = some v1) :
    ∃ k0 m', insertCore E m1 key value = some (m', some v1) ∧
      Inv E m' ∧ m'.items = m1.items ∧ m'.buckets.length = m1.buckets.length ∧
      get E m' key = some value ∧
      (∀ q, E.beq q key = false → findVal E q (entries m') = findVal E q (entries m1)) ∧
      E.beq k0 key = true ∧ (k0, v1) ∈ entries m1 ∧ (k0, value) ∈ entries m' ∧
      (entries m').map Prod.fst = (entries m1).map Prod.fst := by
  have hlt := bucketIdx_lt E m1 key hne
  have hbfv : findVal E key (m1.buckets.getD (E.hash key % m1.buckets.length) []) =
      some v1 := by
    have h2 := get_eq_findVal E hInv key
    rw [hfv] at h2
    simpa [get, bucketIdx_eq_some E m1 key hne, findVal] using h2
  cases hupd : updateEntry E key value
      (m1.buckets.getD (E.hash key % m1.buckets.length) []) with
  | none =>
    exfalso
    rcases findVal_some_elim E hbfv with ⟨k0, hk, hmem⟩
    have hall := (updateEntry_none E key value _).mp hupd
    have := hall (k0, v1) hmem
    rw [hk] at this
    cases this
  | some p =>
    rcases p with ⟨old, bkt'⟩
    rcases updateEntry_some E hupd with ⟨l1, k0, l2, hdecomp, hbkt', hk, hl1⟩
    have hl1none : l1.find? (fun e => E.beq e.1 key) = none :=
      List.find?_eq_none.mpr (by intro x hx; simp [hl1 x hx])
    have hfvdec : findVal E key (l1 ++ (k0, old) :: l2) = some old := by
      simp [findVal, List.find?_append, hl1none, List.find?_cons, hk]
    have holdv1 : old = v1 := by
      rw [hdecomp, hfvdec] at hbfv
      injection hbfv
    subst holdv1
    refine ⟨k0, HashMap.mk (m1.buckets.set (E.hash key % m1.buckets.length) bkt')
      m1.items, ?_, ?_, rfl, List.length_set _ _ _, ?_, ?_,
      hk, ?_, ?_, ?_⟩
    · simp only [insertCore, bucketIdx_eq_some E m1 key hne, hupd]
    · -- invariant for the updated table
      have hgd : m1.buckets.getD (E.hash key % m1.buckets.length) [] =
          m1.buckets[E.hash key % m1.buckets.length] := List.getD_eq_getElem _ _ hlt
      refine ⟨?_, ?_, ?_⟩
      · show m1.items = (m1.buckets.set _ bkt').flatten.length
        rw [flatten_set _ _ hlt, hInv.1, flatten_decomp m1.buckets hlt]
        rw [← hgd, hdecomp, hbkt']
        simp [List.length_append]
      · intro bkt2 hbkt2
        rcases List.getElem_of_mem hbkt2 with ⟨j, hj, rfl⟩
        rw [List.length_set] at hj
        rw [List.getElem_set]
        by_cases hbj : E.hash key % m1.buckets.length = j
        · rw [if_pos hbj, hbkt']
          apply bucketOk_replace E
          rw [← hdecomp, hgd]
          exact hInv.2.1 _ (List.getElem_mem hlt)
        · rw [if_neg hbj]
          exact hInv.2.1 _ (List.getElem_mem hj)
      · apply spread_set E hlt _ hInv.2.2
        intro e he
        rw [hbkt'] at he
        rcases List.mem_append.mp he with h1 | h1
        · exact hInv.2.2 _ hlt e
            (by rw [hdecomp]; exact List.mem_append.mpr (Or.inl h1))
        · rcases List.mem_cons.mp h1 with rfl | h1
          · exact hInv.2.2 _ hlt (k0, old)
              (by rw [hdecomp]
                  exact List.mem_append.mpr (Or.inr (List.mem_cons_self _ _)))
          · exact hInv.2.2 _ hlt e
              (by rw [hdecomp]
                  exact List.mem_append.mpr (Or.inr (List.mem_cons.mpr (Or.inr h1))))
    · -- get on the updated table returns the new value
      have hlen : (m1.buckets.set (E.hash key % m1.buckets.length) bkt').length =
          m1.buckets.length := List.length_set _ _ _
      have hne2 : (m1.buckets.set (E.hash key % m1.buckets.length) bkt') ≠ [] := by
        rw [← List.length_pos, hlen]
        exact List.length_pos.mpr hne
      have hb2 : E.hash key %
          (m1.buckets.set (E.hash key % m1.buckets.length) bkt').length =
          E.hash key % m1.buckets.length := by rw [hlen]
      show get E (HashMap.mk (m1.buckets.set (E.hash key % m1.buckets.length) bkt')
        m1.items) key = some value
      rw [get]
      rw [bucketIdx_eq_some E _ key hne2]
      show ((
        (m1.buckets.set (E.hash key % m1.buckets.length) bkt').getD
          (E.hash key %
            (m1.buckets.set (E.hash key % m1.buckets.length) bkt').length) []).find?
        (fun e => E.beq e.1 key)).map Prod.snd = some value
      rw [hb2, List.getD_eq_getElem _ _ (by rw [hlen]; exact hlt),
        List.getElem_set, if_pos rfl, hbkt']
      simp [List.find?_append, hl1none, List.find?_cons, hk]
    · -- other keys are unaffected
      intro q hq
      have hE' : entries (HashMap.mk
          (m1.buckets.set (E.hash key % m1.buckets.length) bkt') m1.items) =
          (m1.buckets.take (E.hash key % m1.buckets.length)).flatten ++ bkt' ++
          (m1.buckets.drop (E.hash key % m1.buckets.length + 1)).flatten := by
        show (m1.buckets.set _ bkt').flatten = _
        rw [flatten_set _ _ hlt]
      have hE1 : entries m1 =
          (m1.buckets.take (E.hash key % m1.buckets.length)).flatten ++
          (l1 ++ (k0, old) :: l2) ++
          (m1.buckets.drop (E.hash key % m1.buckets.length + 1)).flatten := by
        rw [entries, flatten_decomp m1.buckets hlt,
          ← List.getD_eq_getElem _ _ hlt, hdecomp]
      rw [hE', hE1, hbkt']
      have hsplit1 :
          (m1.buckets.take (E.hash key % m1.buckets.length)).flatten ++
            (l1 ++ (k0, value) :: l2) ++
            (m1.buckets.drop (E.hash key % m1.buckets.length + 1)).flatten =
          ((m1.buckets.take (E.hash key % m1.buckets.length)).flatten ++ l1) ++
            (k0, value) ::
            (l2 ++ (m1.buckets.drop (E.hash key % m1.buckets.length + 1)).flatten) := by
        simp [List.append_assoc]
      have hsplit2 :
          (m1.buckets.take (E.hash key % m1.buckets.length)).flatten ++
            (l1 ++ (k0, old) :: l2) ++
            (m1.buckets.drop (E.hash key % m1.buckets.length + 1)).flatten =
          ((m1.buckets.take (E.hash key % m1.buckets.length)).flatten ++ l1) ++
            (k0, old) ::
            (l2 ++ (m1.buckets.drop (E.hash key % m1.buckets.length + 1)).flatten) := by
        simp [List.append_assoc]
      rw [hsplit1, hsplit2]
      exact findVal_replace E old value hq hk _ _
    · -- the old entry is among the old entries
      rw [entries, flatten_decomp m1.buckets hlt, ← List.getD_eq_getElem _ _ hlt,
        hdecomp]
      simp
    · -- the updated entry is among the new entries
      show (k0, value) ∈ (m1.buckets.set (E.hash key % m1.buckets.length) bkt').flatten
      rw [flatten_set _ _ hlt, hbkt']
      simp
    · -- the stored keys are unchanged
      show ((m1.buckets.set (E.hash key % m1.buckets.length) bkt').flatten).map
        Prod.fst = (entries m1).map Prod.fst
      rw [flatten_set _ _ hlt, entries, flatten_decomp m1.buckets hlt,
        ← List.getD_eq_getElem _ _ hlt, hdecomp, hbkt']
      simp

theorem insertCore_fresh {K V : Type} (E : HashEq K) {m1 : HashMap K V} {key : K}
    (value : V) (hInv : Inv E m1) (hne : m1.buckets ≠ [])
    (hfv : findVal E key (entries m1) = none) :
    ∃ m', insertCore E m1 key value = some (m', none) ∧
      Inv E m' ∧ m'.items = m1.items + 1 ∧ m'.buckets.length = m1.buckets.length ∧
      get E m' key = some value ∧
      (∀ q, E.beq q key = false → findVal E q (entries m') = findVal E q (entries m1)) ∧
      (entries m').Perm (entries m1 ++ [(key, value)]) := by
  have hlt := bucketIdx_lt E m1 key hne
  have hgd : m1.buckets.getD (E.hash key % m1.buckets.length) [] =
      m1.buckets[E.hash key % m1.buckets.length] := List.getD_eq_getElem _ _ hlt
  have hnomatch : ∀ e ∈ m1.buckets.getD (E.hash key % m1.buckets.length) [],
      E.beq e.1 key = false := by
    intro e he
    apply (findVal_eq_none E key (entries m1)).mp hfv
    rw [hgd] at he
    exact List.mem_flatten.mpr ⟨_, List.getElem_mem hlt, he⟩
  have hupd : updateEntry E key value
      (m1.buckets.getD (E.hash key % m1.buckets.length) []) = none :=
    (updateEntry_none E key value _).mpr hnomatch
  have hbnone : (m1.buckets.getD (E.hash key % m1.buckets.length) []).find?
      (fun e => E.beq e.1 key) = none :=
    List.find?_eq_none.mpr (by intro x hx; simp [hnomatch x hx])
  refine ⟨HashMap.mk (m1.buckets.set (E.hash key % m1.buckets.length)
      (m1.buckets.getD (E.hash key % m1.buckets.length) [] ++ [(key, value)]))
      (m1.items + 1), ?_, ?_, rfl, List.length_set _ _ _, ?_, ?_, ?_⟩
  · simp only [insertCore, bucketIdx_eq_some E m1 key hne, hupd]
  · -- invariant for the extended table
    refine ⟨?_, ?_, ?_⟩
    · show m1.items + 1 = (m1.buckets.set _ _).flatten.length
      rw [flatten_set _ _ hlt, hInv.1, flatten_decomp m1.buckets hlt, ← hgd]
      simp [List.length_append]
      omega
    · intro bkt2 hbkt2
      rcases List.getElem_of_mem hbkt2 with ⟨j, hj, rfl⟩
      rw [List.length_set] at hj
      rw [List.getElem_set]
      by_cases hbj : E.hash key % m1.buckets.length = j
      · rw [if_pos hbj]
        rw [BucketOk, List.pairwise_append]
        refine ⟨by rw [hgd]; exact hInv.2.1 _ (List.getElem_mem hlt),
          List.pairwise_singleton _ _, ?_⟩
        intro x hx y hy
        rcases List.mem_singleton.mp hy with rfl
        exact hnomatch x hx
      · rw [if_neg hbj]
        exact hInv.2.1 _ (List.getElem_mem hj)
    · apply spread_set E hlt _ hInv.2.2
      intro e he
      rcases List.mem_append.mp he with h1 | h1
      · exact hInv.2.2 _ hlt e h1
      · rcases List.mem_singleton.mp h1 with rfl
        rfl
  · -- get returns the new value
    have hlen : (m1.buckets.set (E.hash key % m1.buckets.length)
        (m1.buckets.getD (E.hash key % m1.buckets.length) [] ++ [(key, value)])).length =
        m1.buckets.length := List.length_set _ _ _
    have hne2 : (m1.buckets.set (E.hash key % m1.buckets.length)
        (m1.buckets.getD (E.hash key % m1.buckets.length) [] ++ [(key, value)])) ≠ [] := by
      rw [← List.length_pos, hlen]
      exact List.length_pos.mpr hne
    rw [get, bucketIdx_eq_some E _ key hne2]
    show (((m1.buckets.set (E.hash key % m1.buckets.length) _).getD _ []).find?
      (fun e => E.beq e.1 key)).map Prod.snd = some value
    rw [hlen, List.getD_eq_getElem _ _ (by rw [hlen]; exact hlt),
      List.getElem_set, if_pos rfl]
    rw [List.find?_append, hbnone]
    simp [List.find?_cons, E.beq_refl]
  · -- other keys are unaffected
    intro q hq
    have hE' : entries (HashMap.mk (m1.buckets.set (E.hash key % m1.buckets.length)
        (m1.buckets.getD (E.hash key % m1.buckets.length) [] ++ [(key, value)]))
        (m1.items + 1)) =
        (m1.buckets.take (E.hash key % m1.buckets.length)).flatten ++
        (m1.buckets.getD (E.hash key % m1.buckets.length) [] ++ [(key, value)]) ++
        (m1.buckets.drop (E.hash key % m1.buckets.length + 1)).flatten := by
      show (m1.buckets.set _ _).flatten = _
      rw [flatten_set _ _ hlt]
    have hE1 : entries m1 =
        (m1.buckets.take (E.hash key % m1.buckets.length)).flatten ++
        m1.buckets.getD (E.hash key % m1.buckets.length) [] ++
        (m1.buckets.drop (E.hash key % m1.buckets.length + 1)).flatten := by
      rw [entries, flatten_decomp m1.buckets hlt, ← hgd]
    rw [hE', hE1]
    have hsplit1 :
        (m1.buckets.take (E.hash key % m1.buckets.length)).flatten ++
          (m1.buckets.getD (E.hash key % m1.buckets.length) [] ++ [(key, value)]) ++
          (m1.buckets.drop (E.hash key % m1.buckets.length + 1)).flatten =
        ((m1.buckets.take (E.hash key % m1.buckets.length)).flatten ++
          m1.buckets.getD (E.hash key % m1.buckets.length) []) ++
          (key, value) ::
          (m1.buckets.drop (E.hash key % m1.buckets.length + 1)).flatten := by
      simp [List.append_assoc]
    have hsplit2 :
        (m1.buckets.take (E.hash key % m1.buckets.length)).flatten ++
          m1.buckets.getD (E.hash key % m1.buckets.length) [] ++
          (m1.buckets.drop (E.hash key % m1.buckets.length + 1)).flatten =
        ((m1.buckets.take (E.hash key % m1.buckets.length)).flatten ++
          m1.buckets.getD (E.hash key % m1.buckets.length) []) ++
          (m1.buckets.drop (E.hash key % m1.buckets.length + 1)).flatten := by
      simp [List.append_assoc]
    rw [hsplit1, hsplit2]
    exact findVal_skip_mid E value (beq_false_of_target E hq (E.beq_refl key)) _ _
  · -- the new entries are the old ones plus the inserted pair
    show ((m1.buckets.set (E.hash key % m1.buckets.length) _).flatten).Perm _
    rw [flatten_set _ _ hlt, entries, flatten_decomp m1.buckets hlt, ← hgd]
    simp only [List.append_assoc]
    exact List.Perm.append_left _ (List.Perm.append_left _
      (by
        have := @List.perm_append_comm (K × V) [(key, value)]
          ((m1.buckets.drop (E.hash key % m1.buckets.length + 1)).flatten)
        simpa using this))

/-
The load-factor step of `insert`, and the top-level insert specifications.
-/

theorem insert_step {K V : Type} (E : HashEq K) {m : HashMap K V} (h : Inv E m)
    (key : K) (value : V) :
    ∃ m1, insert E m key value = insertCore E m1 key value ∧ Inv E m1 ∧
      (entries m1).Perm (entries m) ∧ m1.items = m.items ∧ m1.buckets ≠ [] ∧
      m.buckets.length ≤ m1.buckets.length := by
  by_cases hc : (m.buckets.isEmpty ∨ 3 * m.buckets.length / 4 < m.items)
  · refine ⟨resize E m, ?_, inv_resize_of_inv E h, resize_entries_perm E m, rfl,
      resize_buckets_ne_nil E m, ?_⟩
    · rw [insert, if_pos hc]
    · rw [resize_buckets_length]
      by_cases h0 : m.buckets.length = 0
      · simp [h0]
      · rw [if_neg h0]
        omega
  · have hne : m.buckets ≠ [] := by
      intro hcon
      exact hc (Or.inl (by rw [hcon]; rfl))
    exact ⟨m, by rw [insert, if_neg hc], h, List.Perm.refl _, rfl, hne, Nat.le_refl _⟩

theorem insertCore_isSome {K V : Type} (E : HashEq K) (m1 : HashMap K V)
    (key : K) (value : V) (hne : m1.buckets ≠ []) :
    ∃ m' r, insertCore E m1 key value = some (m', r) := by
  cases hupd : updateEntry E key value
      (m1.buckets.getD (E.hash key % m1.buckets.length) []) with
  | none =>
    refine ⟨HashMap.mk (m1.buckets.set (E.hash key % m1.buckets.length)
      (m1.buckets.getD (E.hash key % m1.buckets.length) [] ++ [(key, value)]))
      (m1.items + 1), none, ?_⟩
    simp only [insertCore, bucketIdx_eq_some E m1 key hne, hupd]
  | some p =>
    rcases p with ⟨old, bkt'⟩
    refine ⟨HashMap.mk (m1.buckets.set (E.hash key % m1.buckets.length) bkt')
      m1.items, some old, ?_⟩
    simp only [insertCore, bucketIdx_eq_some E m1 key hne, hupd]

theorem insert_found {K V : Type} (E : HashEq K) {m : HashMap K V} {key : K}
    {v1 : V} (value : V) (h : Inv E m)
    (hfv : findVal E key (entries m) = some v1) :
    ∃ k0 m', insert E m key value = some (m', some v1) ∧ Inv E m' ∧
      m'.items = m.items ∧ get E m' key = some value ∧
      (∀ q, E.beq q key = false → get E m' q = get E m q) ∧
      E.beq k0 key = true ∧ (k0, v1) ∈ entries m ∧ (k0, value) ∈ entries m' ∧
      ((entries m').map Prod.fst).Perm ((entries m).map Prod.fst) ∧
      m.buckets.length ≤ m'.buckets.length := by
  rcases insert_step E h key value with ⟨m1, heq, hInv1, hperm, hitems, hne, hlen⟩
  have hfv1 : findVal E key (entries m1) = some v1 := by
    rw [findVal_perm E key (inv_entriesOk E hInv1) hperm]
    exact hfv
  rcases insertCore_found E value hInv1 hne hfv1 with
    ⟨k0, m', hins, hInv', hit, hlen', hget, hframe, hk, hmem1, hmem', hkeys⟩
  refine ⟨k0, m', by rw [heq]; exact hins, hInv', by rw [hit, hitems], hget, ?_, hk,
    hperm.mem_iff.mp hmem1, hmem', ?_, by rw [hlen']; exact hlen⟩
  · intro q hq
    rw [get_eq_findVal E hInv' q, get_eq_findVal E h q, hframe q hq,
      findVal_perm E q (inv_entriesOk E hInv1) hperm]
  · rw [hkeys]
    exact hperm.map _

theorem insert_fresh {K V : Type} (E : HashEq K) {m : HashMap K V} {key : K}
    (value : V) (h : Inv E m)
    (hfv : findVal E key (entries m) = none) :
    ∃ m', insert E m key value = some (m', none) ∧ Inv E m' ∧
      m'.items = m.items + 1 ∧ get E m' key = some value ∧
      (∀ q, E.beq q key = false → get E m' q = get E m q) ∧
      (entries m').Perm (entries m ++ [(key, value)]) ∧
      m.buckets.length ≤ m'.buckets.length := by
  rcases insert_step E h key value with ⟨m1, heq, hInv1, hperm, hitems, hne, hlen⟩
  have hfv1 : findVal E key (entries m1) = none := by
    rw [findVal_perm E key (inv_entriesOk E hInv1) hperm]
    exact hfv
  rcases insertCore_fresh E value hInv1 hne hfv1 with
    ⟨m', hins, hInv', hit, hlen', hget, hframe, hperm'⟩
  refine ⟨m', by rw [heq]; exact hins, hInv', by rw [hit, hitems], hget, ?_, ?_,
    by rw [hlen']; exact hlen⟩
  · intro q hq
    rw [get_eq_findVal E hInv' q, get_eq_findVal E h q, hframe q hq,
      findVal_perm E q (inv_entriesOk E hInv1) hperm]
  · exact hperm'.trans (hperm.append_right _)

theorem insert_isSome {K V : Type} (E : HashEq K) (m : HashMap K V)
    (key : K) (value : V) :
    ∃ m' r, insert E m key value = some (m', r) := by
  by_cases hc : (m.buckets.isEmpty ∨ 3 * m.buckets.length / 4 < m.items)
  · rw [insert, if_pos hc]
    exact insertCore_isSome E _ key value (resize_buckets_ne_nil E m)
  · have hne : m.buckets ≠ [] := by
      intro hcon
      exact hc (Or.inl (by rw [hcon]; rfl))
    rw [insert, if_neg hc]
    exact insertCore_isSome E m key value hne

/-
Specification of `remove`.
-/

theorem remove_absent {K V : Type} (E : HashEq K) {m : HashMap K V} {key : K}
    (hfv : findVal E key (entries m) = none) :
    remove E m key = (m, none) := by
  by_cases hne : m.buckets = []
  · rw [remove, bucketIdx, if_pos (by rw [hne]; rfl)]
  · have hlt := bucketIdx_lt E m key hne
    have hnomatch : ∀ e ∈ m.buckets.getD (E.hash key % m.buckets.length) [],
        E.beq e.1 key = false := by
      intro e he
      apply (findVal_eq_none E key (entries m)).mp hfv
      rw [List.getD_eq_getElem _ _ hlt] at he
      exact List.mem_flatten.mpr ⟨_, List.getElem_mem hlt, he⟩
    have hpos : findPos E key (m.buckets.getD (E.hash key % m.buckets.length) []) =
        none := (findPos_none E key _).mpr hnomatch
    simp only [remove, bucketIdx_eq_some E m key hne, hpos]

theorem remove_found {K V : Type} (E : HashEq K) {m : HashMap K V} {key : K}
    {v : V} (h : Inv E m) (hfv : findVal E key (entries m) = some v) :
    ∃ k0 m', remove E m key = (m', some v) ∧ Inv E m' ∧
      m'.items + 1 = m.items ∧ m'.buckets.length = m.buckets.length ∧
      get E m' key = none ∧
      (∀ q, E.beq q key = false → get E m' q = get E m q) ∧
      E.beq k0 key = true ∧ ((k0, v) :: entries m').Perm (entries m) := by
  have hne : m.buckets ≠ [] := by
    intro hcon
    rw [entries, hcon] at hfv
    simp [findVal] at hfv
  have hlt := bucketIdx_lt E m key hne
  have hgd : m.buckets.getD (E.hash key % m.buckets.length) [] =
      m.buckets[E.hash key % m.buckets.length] := List.getD_eq_getElem _ _ hlt
  have hbfv : findVal E key (m.buckets.getD (E.hash key % m.buckets.length) []) =
      some v := by
    have h2 := get_eq_findVal E h key
    rw [hfv] at h2
    simpa [get, bucketIdx_eq_some E m key hne, findVal] using h2
  have hbok : BucketOk E (m.buckets.getD (E.hash key % m.buckets.length) []) := by
    rw [hgd]
    exact h.2.1 _ (List.getElem_mem hlt)
  cases hpos : findPos E key (m.buckets.getD (E.hash key % m.buckets.length) []) with
  | none =>
    exfalso
    rcases findVal_some_elim E hbfv with ⟨k0, hk, hmem⟩
    have := (findPos_none E key _).mp hpos (k0, v) hmem
    rw [hk] at this
    cases this
  | some p =>
    rcases p with ⟨i, w⟩
    rcases findPos_some E hpos with ⟨l1, k0, l2, hdecomp, hi, hk, hl1⟩
    have hl1none : l1.find? (fun e => E.beq e.1 key) = none :=
      List.find?_eq_none.mpr (by intro x hx; simp [hl1 x hx])
    have hwv : v = w := by
      have hfvdec : findVal E key (l1 ++ (k0, w) :: l2) = some w := by
        simp [findVal, List.find?_append, hl1none, List.find?_cons, hk]
      rw [hdecomp, hfvdec] at hbfv
      injection hbfv with hwv2
      exact hwv2.symm
    subst hwv
    subst hi
    have hswap := swapRemove_perm l1 (k0, v) l2
    have hlenswap : (swapRemove (l1 ++ (k0, v) :: l2) l1.length).length =
        l1.length + l2.length := by
      rw [hswap.length_eq, List.length_append]
    have hl2none : ∀ e ∈ l2, E.beq e.1 key = false := by
      intro e he
      by_contra hcon
      have he2 : E.beq e.1 key = true := beq_of_not_false E hcon
      have hke : E.beq k0 e.1 = true :=
        E.beq_trans _ _ _ hk (by rw [E.beq_symm]; exact he2)
      have hbok2 := hbok
      rw [hdecomp, BucketOk, List.pairwise_append] at hbok2
      have := (List.pairwise_cons.mp hbok2.2.1).1 e he
      rw [this] at hke
      cases hke
    have hnewnone : ∀ e ∈ swapRemove (l1 ++ (k0, v) :: l2) l1.length,
        E.beq e.1 key = false := by
      intro e he
      have he2 := hswap.mem_iff.mp he
      rcases List.mem_append.mp he2 with h1 | h1
      · exact hl1 e h1
      · exact hl2none e h1
    have hnewmem : ∀ e ∈ swapRemove (l1 ++ (k0, v) :: l2) l1.length,
        e ∈ m.buckets.getD (E.hash key % m.buckets.length) [] := by
      intro e he
      have he2 := hswap.mem_iff.mp he
      rw [hdecomp]
      rcases List.mem_append.mp he2 with h1 | h1
      · exact List.mem_append.mpr (Or.inl h1)
      · exact List.mem_append.mpr (Or.inr (List.mem_cons.mpr (Or.inr h1)))
    have hInv' : Inv E (HashMap.mk (m.buckets.set (E.hash key % m.buckets.length)
        (swapRemove (m.buckets.getD (E.hash key % m.buckets.length) [])
          l1.length)) (m.items - 1)) := by
      refine ⟨?_, ?_, ?_⟩
      · show m.items - 1 = (m.buckets.set _ _).flatten.length
        rw [flatten_set _ _ hlt, h.1, flatten_decomp m.buckets hlt, ← hgd, hdecomp]
        simp [List.length_append, hlenswap]
        omega
      · intro bkt2 hbkt2
        rcases List.getElem_of_mem hbkt2 with ⟨j, hj, rfl⟩
        rw [List.length_set] at hj
        rw [List.getElem_set]
        by_cases hbj : E.hash key % m.buckets.length = j
        · rw [if_pos hbj, hdecomp]
          have hsub : (l1 ++ l2).Sublist (l1 ++ (k0, v) :: l2) :=
            List.Sublist.append_left (List.sublist_cons_self _ _) l1
          have hplist : BucketOk E (l1 ++ l2) := by
            apply List.Pairwise.sublist hsub
            rw [← hdecomp]
            exact hbok
          exact (hswap.pairwise_iff (fun hxy => beq_false_symm E hxy)).mpr hplist
        · rw [if_neg hbj]
          exact h.2.1 _ (List.getElem_mem hj)
      · apply spread_set E hlt _ h.2.2
        intro e he
        rw [hdecomp] at he
        exact h.2.2 _ hlt e (hnewmem e he)
    have hE' : entries (HashMap.mk (m.buckets.set (E.hash key % m.buckets.length)
        (swapRemove (m.buckets.getD (E.hash key % m.buckets.length) [])
          l1.length)) (m.items - 1)) =
        (m.buckets.take (E.hash key % m.buckets.length)).flatten ++
        (swapRemove (l1 ++ (k0, v) :: l2) l1.length) ++
        (m.buckets.drop (E.hash key % m.buckets.length + 1)).flatten := by
      show (m.buckets.set _ _).flatten = _
      rw [flatten_set _ _ hlt, hdecomp]
    have hE1 : entries m =
        (m.buckets.take (E.hash key % m.buckets.length)).flatten ++
        (l1 ++ (k0, v) :: l2) ++
        (m.buckets.drop (E.hash key % m.buckets.length + 1)).flatten := by
      rw [entries, flatten_decomp m.buckets hlt, ← hgd, hdecomp]
    have hmid : (entries (HashMap.mk (m.buckets.set
        (E.hash key % m.buckets.length)
        (swapRemove (m.buckets.getD (E.hash key % m.buckets.length) [])
          l1.length)) (m.items - 1))).Perm
        ((m.buckets.take (E.hash key % m.buckets.length)).flatten ++
          (l1 ++ l2) ++
          (m.buckets.drop (E.hash key % m.buckets.length + 1)).flatten) := by
      rw [hE']
      have hp := (hswap.append_right
        ((m.buckets.drop (E.hash key % m.buckets.length + 1)).flatten)).append_left
        ((m.buckets.take (E.hash key % m.buckets.length)).flatten)
      simpa [List.append_assoc] using hp
    refine ⟨k0, HashMap.mk (m.buckets.set (E.hash key % m.buckets.length)
      (swapRemove (m.buckets.getD (E.hash key % m.buckets.length) [])
        l1.length)) (m.items - 1), ?_, hInv', ?_, List.length_set _ _ _, ?_, ?_, hk, ?_⟩
    · simp only [remove, bucketIdx_eq_some E m key hne, hpos]
    · -- the length decreases by one
      have hlen1 : m.items = (entries m).length := h.1
      rw [hE1] at hlen1
      simp [List.length_append] at hlen1
      show m.items - 1 + 1 = m.items
      omega
    · -- the key is gone
      have hlen : (m.buckets.set (E.hash key % m.buckets.length)
          (swapRemove (m.buckets.getD (E.hash key % m.buckets.length) [])
            l1.length)).length = m.buckets.length := List.length_set _ _ _
      have hne2 : (m.buckets.set (E.hash key % m.buckets.length)
          (swapRemove (m.buckets.getD (E.hash key % m.buckets.length) [])
            l1.length)) ≠ [] := by
        rw [← List.length_pos, hlen]
        exact List.length_pos.mpr hne
      rw [get, bucketIdx_eq_some E _ key hne2]
      show ((((m.buckets.set (E.hash key % m.buckets.length) _)).getD _ []).find?
        (fun e => E.beq e.1 key)).map Prod.snd = none
      rw [hlen, List.getD_eq_getElem _ _ (by rw [hlen]; exact hlt),
        List.getElem_set, if_pos rfl]
      rw [List.find?_eq_none.mpr (by
        intro x hx
        rw [hdecomp] at hx
        simp [hnewnone x hx])]
      rfl
    · -- other keys are unaffected
      intro q hq
      rw [get_eq_findVal E hInv' q, get_eq_findVal E h q]
      rw [findVal_perm E q (inv_entriesOk E hInv') hmid, hE1]
      have hmidq : E.beq k0 q = false := beq_false_of_target E hq hk
      have hsplit1 :
          (m.buckets.take (E.hash key % m.buckets.length)).flatten ++
            (l1 ++ (k0, v) :: l2) ++
            (m.buckets.drop (E.hash key % m.buckets.length + 1)).flatten =
          ((m.buckets.take (E.hash key % m.buckets.length)).flatten ++ l1) ++
            (k0, v) ::
            (l2 ++ (m.buckets.drop (E.hash key % m.buckets.length + 1)).flatten) := by
        simp [List.append_assoc]
      have hsplit2 :
          (m.buckets.take (E.hash key % m.buckets.length)).flatten ++
            (l1 ++ l2) ++
            (m.buckets.drop (E.hash key % m.buckets.length + 1)).flatten =
          ((m.buckets.take (E.hash key % m.buckets.length)).flatten ++ l1) ++
            (l2 ++ (m.buckets.drop (E.hash key % m.buckets.length + 1)).flatten) := by
        simp [List.append_assoc]
      rw [hsplit1, hsplit2]
      exact (findVal_skip_mid E v hmidq _ _).symm
    · -- removing the entry undoes the insertion, up to permutation
      apply (List.Perm.cons _ hmid).trans
      rw [hE1]
      have hgoal :
          ((m.buckets.take (E.hash key % m.buckets.length)).flatten ++
            (l1 ++ (k0, v) :: l2) ++
            (m.buckets.drop (E.hash key % m.buckets.length + 1)).flatten) =
          ((m.buckets.take (E.hash key % m.buckets.length)).flatten ++ l1) ++
            (k0, v) ::
            (l2 ++ (m.buckets.drop (E.hash key % m.buckets.length + 1)).flatten) := by
        simp [List.append_assoc]
      rw [hgoal]
      have hmiddle := @List.perm_middle (K × V) ((k0, v))
        ((m.buckets.take (E.hash key % m.buckets.length)).flatten ++ l1)
        (l2 ++ (m.buckets.drop (E.hash key % m.buckets.length + 1)).flatten)
      apply List.Perm.symm
      apply hmiddle.trans
      apply List.Perm.cons
      simp [List.append_assoc]

/-
Iteration: the run of `Iter::next` yields exactly the flattened buckets.
-/

theorem flatten_drop_succ {α : Type} (bs : List (List α)) (i : Nat) :
    (bs.drop i).flatten = bs.getD i [] ++ (bs.drop (i + 1)).flatten := by
  by_cases h : i < bs.length
  · rw [List.drop_eq_getElem_cons h, List.flatten_cons, List.getD_eq_getElem _ _ h]
  · rw [List.drop_eq_nil_of_le (by omega), List.drop_eq_nil_of_le (by omega),
      List.getD_eq_getElem?_getD, List.getElem?_eq_none (by omega)]
    rfl

theorem iterFrom_none {K V : Type} (bs : List (List (K × V))) (b a : Nat)
    (h : bs[b]? = none) : iterFrom bs b a = [] := by
  rw [iterFrom]
  split
  · rfl
  · rename_i bkt hbkt
    rw [h] at hbkt
    cases hbkt

theorem iterFrom_yield {K V : Type} (bs : List (List (K × V))) (b a : Nat)
    {bkt : List (K × V)} {e : K × V} (h : bs[b]? = some bkt) (h2 : bkt[a]? = some e) :
    iterFrom bs b a = e :: iterFrom bs b (a + 1) := by
  rw [iterFrom]
  split
  · rename_i hbkt
    rw [h] at hbkt
    cases hbkt
  · rename_i bkt2 hbkt
    rw [h] at hbkt
    injection hbkt with hbkt
    subst hbkt
    split
    · rename_i e2 he2
      rw [h2] at he2
      injection he2 with he2
      subst he2
      rfl
    · rename_i he2
      rw [h2] at he2
      cases he2

theorem iterFrom_skip {K V : Type} (bs : List (List (K × V))) (b a : Nat)
    {bkt : List (K × V)} (h : bs[b]? = some bkt) (h2 : bkt[a]? = none) :
    iterFrom bs b a = iterFrom bs (b + 1) 0 := by
  rw [iterFrom]
  split
  · rename_i hbkt
    rw [h] at hbkt
    cases hbkt
  · rename_i bkt2 hbkt
    rw [h] at hbkt
    injection hbkt with hbkt
    subst hbkt
    split
    · rename_i e2 he2
      rw [h2] at he2
      cases he2
    · rfl

theorem iterFrom_eq {K V : Type} (bs : List (List (K × V))) :
    ∀ b a, iterFrom bs b a =
      ((bs.getD b []).drop a) ++ ((bs.drop (b + 1)).flatten) := by
  have main : ∀ n b a, bs.length - b ≤ n →
      iterFrom bs b a = ((bs.getD b []).drop a) ++ ((bs.drop (b + 1)).flatten) := by
    intro n
    induction n with
    | zero =>
      intro b a hb
      have hge : bs.length ≤ b := by omega
      rw [iterFrom_none bs b a (List.getElem?_eq_none hge)]
      rw [List.getD_eq_getElem?_getD, List.getElem?_eq_none hge]
      rw [show bs.drop (b + 1) = [] from List.drop_eq_nil_of_le (by omega)]
      simp
    | succ n ih =>
      intro b a hb
      cases hbb : bs[b]? with
      | none =>
        have hge : bs.length ≤ b := by
          by_contra hcon
          rw [List.getElem?_eq_getElem (by omega)] at hbb
          cases hbb
        rw [iterFrom_none bs b a hbb]
        rw [List.getD_eq_getElem?_getD, hbb]
        rw [show bs.drop (b + 1) = [] from List.drop_eq_nil_of_le (by omega)]
        simp
      | some bkt =>
        have hblt : b < bs.length := (List.getElem?_eq_some.mp hbb).1
        have hgd : bs.getD b [] = bkt := by
          rw [List.getD_eq_getElem?_getD, hbb]
          rfl
        have inner : ∀ k a2, bkt.length - a2 = k →
            iterFrom bs b a2 = (bkt.drop a2) ++ ((bs.drop (b + 1)).flatten) := by
          intro k
          induction k with
          | zero =>
            intro a2 ha2
            have hge2 : bkt.length ≤ a2 := by omega
            rw [iterFrom_skip bs b a2 hbb (List.getElem?_eq_none hge2)]
            rw [ih (b + 1) 0 (by omega), List.drop_eq_nil_of_le hge2]
            rw [List.drop_zero]
            show bs.getD (b + 1) [] ++ (bs.drop (b + 2)).flatten = _
            rw [← flatten_drop_succ bs (b + 1)]
            rfl
          | succ kk ihk =>
            intro a2 ha2
            have ha2lt : a2 < bkt.length := by omega
            rw [iterFrom_yield bs b a2 hbb (List.getElem?_eq_getElem ha2lt)]
            rw [ihk (a2 + 1) (by omega)]
            rw [List.drop_eq_getElem_cons ha2lt]
            rfl
        rw [hgd]
        exact inner (bkt.length - a) a rfl
  intro b a
  exact main (bs.length - b) b a (Nat.le_refl _)

theorem toList_eq_entries {K V : Type} (m : HashMap K V) : toList m = entries m := by
  rw [toList, iterFrom_eq, List.drop_zero, entries, ← flatten_drop_succ m.buckets 0]
  rfl

/-
The invariant holds in every reachable state.
-/

theorem inv_new {K V : Type} (E : HashEq K) : Inv E (new : HashMap K V) := by
  refine ⟨rfl, ?_, ?_⟩
  · intro bkt hbkt
    simp [new] at hbkt
  · intro i hi
    simp [new] at hi

theorem insert_inv {K V : Type} (E : HashEq K) {m m' : HashMap K V} {k : K} {v : V}
    {r : Option V} (h : Inv E m) (hins : insert E m k v = some (m', r)) :
    Inv E m' := by
  cases hfv : findVal E k (entries m) with
  | some v1 =>
    rcases insert_found E v h hfv with ⟨k0, m2, hins2, hInv2, -⟩
    rw [hins2] at hins
    simp at hins
    rw [← hins.1]
    exact hInv2
  | none =>
    rcases insert_fresh E v h hfv with ⟨m2, hins2, hInv2, -⟩
    rw [hins2] at hins
    simp at hins
    rw [← hins.1]
    exact hInv2

theorem remove_inv {K V : Type} (E : HashEq K) {m : HashMap K V} (k : K)
    (h : Inv E m) : Inv E (remove E m k).1 := by
  cases hfv : findVal E k (entries m) with
  | some v =>
    rcases remove_found E h hfv with ⟨k0, m', hrm, hInv', -⟩
    rw [hrm]
    exact hInv'
  | none =>
    rw [remove_absent E hfv]
    exact h

theorem reachable_inv {K V : Type} (E : HashEq K) {m : HashMap K V}
    (h : Reachable E m) : Inv E m := by
  induction h with
  | new => exact inv_new E
  | insert m0 m' k v r hr hins ih => exact insert_inv E ih hins
  | remove m0 k hr ih => exact remove_inv E k ih
  | resize m0 hr ih => exact inv_resize_of_inv E ih

/-
Sequences of inserts with fresh, pairwise-inequivalent keys.
-/

theorem insertAll_fresh {K V : Type} (E : HashEq K) :
    ∀ (ps : List (K × V)) (m : HashMap K V), Inv E m →
    (∀ p ∈ ps, findVal E p.1 (entries m) = none) →
    List.Pairwise (fun p q : K × V => E.beq p.1 q.1 = false) ps →
    ∃ m', insertAll E m ps = some m' ∧ Inv E m' ∧
      m'.items = m.items + ps.length ∧ (entries m').Perm (entries m ++ ps) := by
  intro ps
  induction ps with
  | nil =>
    intro m h _ _
    exact ⟨m, rfl, h, by simp, by simp⟩
  | cons p rest ih =>
    intro m hInv hfresh hpair
    rcases p with ⟨k, v⟩
    rcases insert_fresh E v hInv (hfresh (k, v) (List.mem_cons_self _ _)) with
      ⟨m1, hins, hInv1, hitems1, hget1, hframe1, hperm1, hlen1⟩
    have hok1 : EntriesOk E m1 := inv_entriesOk E hInv1
    have hfresh1 : ∀ q ∈ rest, findVal E q.1 (entries m1) = none := by
      intro q hq
      rw [findVal_perm E q.1 hok1 hperm1, findVal_eq_none]
      intro e he
      rcases List.mem_append.mp he with h1 | h1
      · exact (findVal_eq_none E q.1 (entries m)).mp
          (hfresh q (List.mem_cons.mpr (Or.inr hq))) e h1
      · rcases List.mem_singleton.mp h1 with rfl
        exact (List.pairwise_cons.mp hpair).1 q hq
    rcases ih m1 hInv1 hfresh1 (List.pairwise_cons.mp hpair).2 with
      ⟨m', hall, hInv2, hitems2, hperm2⟩
    refine ⟨m', ?_, hInv2, ?_, ?_⟩
    · simp only [insertAll, hins]
      exact hall
    · rw [hitems2, hitems1]
      simp [List.length_cons]
      omega
    · apply hperm2.trans
      apply (hperm1.append_right rest).trans
      have heq : (entries m ++ [(k, v)]) ++ rest = entries m ++ (k, v) :: rest := by
        simp
      rw [heq]

/-
Bucket counts never decrease.
-/

theorem insertCore_buckets_length {K V : Type} (E : HashEq K) {m1 m' : HashMap K V}
    {k : K} {v : V} {r : Option V} (h : insertCore E m1 k v = some (m', r)) :
    m'.buckets.length = m1.buckets.length := by
  rw [insertCore] at h
  cases hb : bucketIdx E m1 k with
  | none =>
    simp only [hb] at h
    cases h
  | some b =>
    simp only [hb] at h
    cases hupd : updateEntry E k v (m1.buckets.getD b []) with
    | none =>
      simp only [hupd] at h
      injection h with h
      injection h with h1 h2
      rw [← h1, List.length_set]
    | some p =>
      rcases p with ⟨old, bkt⟩
      simp only [hupd] at h
      injection h with h
      injection h with h1 h2
      rw [← h1, List.length_set]

theorem insert_buckets_length {K V : Type} (E : HashEq K) {m m' : HashMap K V}
    {k : K} {v : V} {r : Option V} (h : insert E m k v = some (m', r)) :
    m.buckets.length ≤ m'.buckets.length := by
  rw [insert] at h
  by_cases hc : (m.buckets.isEmpty ∨ 3 * m.buckets.length / 4 < m.items)
  · rw [if_pos hc] at h
    rw [insertCore_buckets_length E h, resize_buckets_length]
    by_cases h0 : m.buckets.length = 0
    · simp [h0]
    · rw [if_neg h0]
      omega
  · rw [if_neg hc] at h
    rw [insertCore_buckets_length E h]

theorem remove_buckets_length {K V : Type} (E : HashEq K) (m : HashMap K V)
    (k : K) : ((remove E m k).1).buckets.length = m.buckets.length := by
  cases hb : bucketIdx E m k with
  | none => simp only [remove, hb]
  | some b =>
    cases hp : findPos E k (m.buckets.getD b []) with
    | none =>
      simp only [remove, hb, hp]
    | some p =>
      rcases p with ⟨i, v⟩
      simp only [remove, hb, hp]
      exact List.length_set _ _ _

/-
Claim theorems.
-/

/-- C1: for every table satisfying the representation invariant and every key
`k` already present with value `v1`, `insert(k, v2)` returns `Some(v1)`,
leaves `get(k) == Some(v2)`, leaves `len()` unchanged, and retains the
originally stored key in the entry: some stored key `k0` equivalent to `k`
carries `v1` before and `v2` after, and the multiset of stored keys is
unchanged (the new key argument is discarded, not re-inserted). -/
theorem insert_existing_key_updates_in_place {K V : Type} (E : HashEq K)
    (m : HashMap K V) (k : K) (v1 v2 : V)
    (hInv : Inv E m) (hget : get E m k = some v1) :
    ∃ m', insert E m k v2 = some (m', some v1) ∧
      get E m' k = some v2 ∧ len m' = len m ∧
      ∃ k0, E.beq k0 k = true ∧ (k0, v1) ∈ entries m ∧ (k0, v2) ∈ entries m' ∧
        ((entries m').map Prod.fst).Perm ((entries m).map Prod.fst) := by
  have hfv : findVal E k (entries m) = some v1 := by
    rw [← get_eq_findVal E hInv]
    exact hget
  rcases insert_found E v2 hInv hfv with
    ⟨k0, m', hins, hInv', hitems, hget', hframe, hk, hm1, hm2, hkeys, hlen⟩
  exact ⟨m', hins, hget', hitems, k0, hk, hm1, hm2, hkeys⟩

/-- C2: inserting an absent key returns `None` and increases `len()` by one;
consequently a sequence of inserts with pairwise-inequivalent keys into a new
table yields `len()` equal to the number of keys, and the final entries are
exactly the inserted pairs (one entry per distinct key). -/
theorem insert_new_key_appends {K V : Type} (E : HashEq K) :
    (∀ (m : HashMap K V) (k : K) (v : V), Inv E m → get E m k = none →
      ∃ m', insert E m k v = some (m', none) ∧ len m' = len m + 1) ∧
    (∀ ps : List (K × V),
      List.Pairwise (fun p q : K × V => E.beq p.1 q.1 = false) ps →
      ∃ m', insertAll E new ps = some m' ∧ len m' = ps.length ∧
        (entries m').Perm ps) := by
  constructor
  · intro m k v hInv hget
    have hfv : findVal E k (entries m) = none := by
      rw [← get_eq_findVal E hInv]
      exact hget
    rcases insert_fresh E v hInv hfv with ⟨m', hins, -, hitems, -⟩
    exact ⟨m', hins, hitems⟩
  · intro ps hpair
    rcases insertAll_fresh E ps new (inv_new E) (fun p _ => rfl) hpair with
      ⟨m', hall, hInv', hitems, hperm⟩
    refine ⟨m', hall, ?_, by simpa [entries, new] using hperm⟩
    show m'.items = ps.length
    rw [hitems]
    simp [new]

/-- C3: `remove(k)` returns `Some(v)` exactly when an entry with key
equivalent to `k` and value `v` is present; in that case `len()` decreases by
one and a subsequent `get(k)` returns `None`; when no such entry exists
(including the zero-bucket state) the table is returned unchanged with
`None`. -/
theorem remove_present_iff {K V : Type} (E : HashEq K) (m : HashMap K V)
    (k : K) (hInv : Inv E m) :
    (∀ v, (remove E m k).2 = some v ↔
      ∃ k0, E.beq k0 k = true ∧ (k0, v) ∈ entries m) ∧
    (∀ v, (remove E m k).2 = some v →
      len (remove E m k).1 + 1 = len m ∧ get E (remove E m k).1 k = none) ∧
    ((remove E m k).2 = none → remove E m k = (m, none)) := by
  cases hfv : findVal E k (entries m) with
  | none =>
    have hrm := remove_absent E hfv
    refine ⟨?_, ?_, fun _ => hrm⟩
    · intro v
      rw [hrm]
      constructor
      · intro hcon
        cases hcon
      · rintro ⟨k0, hk, hmem⟩
        have := (findVal_eq_none E k (entries m)).mp hfv (k0, v) hmem
        rw [hk] at this
        cases this
    · intro v hv
      rw [hrm] at hv
      cases hv
  | some v0 =>
    rcases remove_found E hInv hfv with
      ⟨k0, m', hrm, hInv', hitems, hlen, hget', hframe, hk, hperm⟩
    refine ⟨?_, ?_, ?_⟩
    · intro v
      rw [hrm]
      show some v0 = some v ↔ _
      constructor
      · intro hv
        injection hv with hv
        subst hv
        exact ⟨k0, hk, hperm.mem_iff.mp (List.mem_cons_self _ _)⟩
      · rintro ⟨k1, hk1, hmem⟩
        have hres := findVal_eq_some_of_mem E (inv_entriesOk E hInv) hmem hk1
        rw [hfv] at hres
        injection hres with hres
        rw [hres]
    · intro v hv
      rw [hrm]
      exact ⟨hitems, hget'⟩
    · intro hnone
      rw [hrm] at hnone
      cases hnone

/-- C4: `resize` preserves the key-to-value mapping — `get` returns the same
value for every key before and after a resize — and `len()` is unchanged. -/
theorem resize_preserves_mapping {K V : Type} (E : HashEq K) (m : HashMap K V)
    (hInv : Inv E m) :
    (∀ k, get E (resize E m) k = get E m k) ∧ len (resize E m) = len m := by
  refine ⟨?_, rfl⟩
  intro k
  have hInv2 := inv_resize_of_inv E hInv
  rw [get_eq_findVal E hInv2 k, get_eq_findVal E hInv k]
  exact findVal_perm E k (inv_entriesOk E hInv2) (resize_entries_perm E m)

/-- C5: the iterator visits bucket 0 from first entry to last, then bucket 1,
and so on (its run equals the concatenation of the buckets in order); after
inserting pairwise-inequivalent keys into a new table, iterating yields
exactly the inserted pairs — no duplicates, no omissions — and terminates
after exactly `len()` items. -/
theorem iteration_round_trip {K V : Type} (E : HashEq K) :
    (∀ m : HashMap K V, toList m = m.buckets.flatten) ∧
    (∀ ps : List (K × V),
      List.Pairwise (fun p q : K × V => E.beq p.1 q.1 = false) ps →
      ∃ m, insertAll E new ps = some m ∧ (toList m).Perm ps ∧
        (toList m).length = len m) := by
  constructor
  · intro m
    rw [toList_eq_entries]
    rfl
  · intro ps hpair
    rcases insertAll_fresh E ps new (inv_new E) (fun p _ => rfl) hpair with
      ⟨m', hall, hInv', hitems, hperm⟩
    refine ⟨m', hall, ?_, ?_⟩
    · rw [toList_eq_entries]
      simpa [entries, new] using hperm
    · rw [toList_eq_entries]
      show (entries m').length = m'.items
      rw [hInv'.1]
      rfl

/-- C6: in every state reachable through `new`, `insert`, `remove` and the
internal `resize` (the read-only operations do not mutate the table), the
`items` counter equals the total number of entries across all buckets and no
two entries of any single bucket have equivalent keys. -/
theorem reachable_count_and_distinct {K V : Type} (E : HashEq K)
    (m : HashMap K V) (h : Reachable E m) :
    m.items = m.buckets.flatten.length ∧ ∀ bkt ∈ m.buckets, BucketOk E bkt := by
  have hInv := reachable_inv E h
  exact ⟨hInv.1, hInv.2.1⟩

/-- C7: on a new, never-inserted table (zero buckets) the bucket-selection
function returns `none`, and `get`, `contains_key` and `remove` treat every
key as absent, returning `None`, `false` and `None` with the table
unchanged. -/
theorem empty_table_behaves_as_absent {K V : Type} (E : HashEq K) (k : K) :
    bucketIdx E (new : HashMap K V) k = none ∧
    get E (new : HashMap K V) k = none ∧
    containsKey E (new : HashMap K V) k = false ∧
    remove E (new : HashMap K V) k = (new, none) :=
  ⟨rfl, rfl, rfl, rfl⟩

/-- C8: `resize` sets the bucket count to 1 when it was 0 and doubles it
otherwise, so the bucket count never decreases under `resize`, `insert` or
`remove` — the table only grows. -/
theorem bucket_count_only_grows {K V : Type} (E : HashEq K) (m : HashMap K V) :
    ((resize E m).buckets.length =
      if m.buckets.length = 0 then 1 else 2 * m.buckets.length) ∧
    m.buckets.length ≤ (resize E m).buckets.length ∧
    (∀ (k : K) (v : V) (m' : HashMap K V) (r : Option V),
      insert E m k v = some (m', r) → m.buckets.length ≤ m'.buckets.length) ∧
    (∀ k : K, ((remove E m k).1).buckets.length = m.buckets.length) := by
  refine ⟨resize_buckets_length E m, ?_, ?_, remove_buckets_length E m⟩
  · rw [resize_buckets_length]
    by_cases h0 : m.buckets.length = 0
    · simp [h0]
    · rw [if_neg h0]
      omega
  · intro k v m' r hins
    exact insert_buckets_length E hins

/-- C9: the load check at the start of `insert` guarantees that after the
conditional resize at least one bucket exists, so the bucket selection always
returns an index and the `.expect` panic branch is unreachable — `insert`
always returns a result. -/
theorem insert_never_panics {K V : Type} (E : HashEq K) (m : HashMap K V)
    (k : K) (v : V) :
    (∃ b, bucketIdx E
      (if m.buckets.isEmpty ∨ 3 * m.buckets.length / 4 < m.items
        then resize E m else m) k = some b) ∧
    ∃ m' r, insert E m k v = some (m', r) := by
  constructor
  · by_cases hc : (m.buckets.isEmpty ∨ 3 * m.buckets.length / 4 < m.items)
    · rw [if_pos hc, bucketIdx_eq_some E _ k (resize_buckets_ne_nil E m)]
      exact ⟨_, rfl⟩
    · have hne : m.buckets ≠ [] := by
        intro hcon
        exact hc (Or.inl (by rw [hcon]; rfl))
      rw [if_neg hc, bucketIdx_eq_some E m k hne]
      exact ⟨_, rfl⟩
  · exact insert_isSome E m k v

/-- C10: in every reachable table state every stored entry resides in the
bucket selected by its key's hash modulo the bucket count (the home-bucket
invariant), and consequently `get` and `remove`, which scan only the single
bucket selected for the query key, find every present entry. -/
theorem home_bucket_invariant {K V : Type} (E : HashEq K) (m : HashMap K V)
    (h : Reachable E m) :
    (∀ i < m.buckets.length, ∀ e ∈ m.buckets.getD i [],
      E.hash e.1 % m.buckets.length = i) ∧
    (∀ (k : K) (v : V) (k0 : K), E.beq k0 k = true → (k0, v) ∈ entries m →
      (get E m k).isSome = true) ∧
    (∀ (k : K) (v : V) (k0 : K), E.beq k0 k = true → (k0, v) ∈ entries m →
      ((remove E m k).2).isSome = true) := by
  have hInv := reachable_inv E h
  refine ⟨hInv.2.2, ?_, ?_⟩
  · intro k v k0 hk hmem
    have hres := findVal_eq_some_of_mem E (inv_entriesOk E hInv) hmem hk
    rw [get_eq_findVal E hInv, hres]
    rfl
  · intro k v k0 hk hmem
    have hfv := findVal_eq_some_of_mem E (inv_entriesOk E hInv) hmem hk
    rcases remove_found E hInv hfv with ⟨k1, m', hrm, -⟩
    rw [hrm]
    rfl

/-
Concrete facts about `exMap`, used by the witnesses below.
-/

theorem exMap_step : insert natE (new : HashMap Nat Nat) 0 42 = some (exMap, none) :=
  rfl

theorem exInv : Inv natE exMap :=
  insert_inv natE (inv_new natE) exMap_step

theorem exReach : Reachable natE exMap :=
  Reachable.insert new exMap 0 42 none Reachable.new exMap_step

/-
Witnesses.
-/

/-- Witness for C1 at the concrete table `exMap` and key `0`. -/
theorem insert_existing_key_updates_in_place_witness :
    Inv natE exMap ∧ get natE exMap 0 = some 42 ∧
    (∃ m', insert natE exMap 0 43 = some (m', some 42) ∧
      get natE m' 0 = some 43 ∧ len m' = len exMap ∧
      ∃ k0, natE.beq k0 0 = true ∧ (k0, 42) ∈ entries exMap ∧
        (k0, 43) ∈ entries m' ∧
        ((entries m').map Prod.fst).Perm ((entries exMap).map Prod.fst)) :=
  ⟨exInv, rfl, insert_existing_key_updates_in_place natE exMap 0 42 43 exInv rfl⟩

/-- Witness for C2: a fresh single insert into `exMap` and a two-element
distinct-key insert sequence into a new table. -/
theorem insert_new_key_appends_witness :
    Inv natE exMap ∧ get natE exMap 1 = none ∧
    (∃ m', insert natE exMap 1 7 = some (m', none) ∧ len m' = len exMap + 1) ∧
    List.Pairwise (fun p q : Nat × Nat => natE.beq p.1 q.1 = false)
      [(0, 1), (1, 2)] ∧
    (∃ m', insertAll natE new [(0, 1), (1, 2)] = some m' ∧
      len m' = ([(0, 1), (1, 2)] : List (Nat × Nat)).length ∧
      (entries m').Perm [(0, 1), (1, 2)]) :=
  ⟨exInv, rfl, (insert_new_key_appends natE).1 exMap 1 7 exInv rfl,
    by decide, (insert_new_key_appends natE).2 [(0, 1), (1, 2)] (by decide)⟩

/-- Witness for C3 at the concrete table `exMap` and key `0`. -/
theorem remove_present_iff_witness :
    Inv natE exMap ∧
    ((∀ v, (remove natE exMap 0).2 = some v ↔
      ∃ k0, natE.beq k0 0 = true ∧ (k0, v) ∈ entries exMap) ∧
    (∀ v, (remove natE exMap 0).2 = some v →
      len (remove natE exMap 0).1 + 1 = len exMap ∧
      get natE (remove natE exMap 0).1 0 = none) ∧
    ((remove natE exMap 0).2 = none → remove natE exMap 0 = (exMap, none))) :=
  ⟨exInv, remove_present_iff natE exMap 0 exInv⟩

/-- Witness for C4 at the concrete table `exMap`. -/
theorem resize_preserves_mapping_witness :
    Inv natE exMap ∧
    ((∀ k, get natE (resize natE exMap) k = get natE exMap k) ∧
      len (resize natE exMap) = len exMap) :=
  ⟨exInv, resize_preserves_mapping natE exMap exInv⟩

/-- Witness for C5: traversal order on `exMap` and the round trip for a
two-element distinct-key insert sequence. -/
theorem iteration_round_trip_witness :
    toList exMap = exMap.buckets.flatten ∧
    List.Pairwise (fun p q : Nat × Nat => natE.beq p.1 q.1 = false)
      [(0, 1), (1, 2)] ∧
    (∃ m, insertAll natE new [(0, 1), (1, 2)] = some m ∧
      (toList m).Perm [(0, 1), (1, 2)] ∧ (toList m).length = len m) :=
  ⟨(iteration_round_trip natE).1 exMap, by decide,
    (iteration_round_trip natE).2 [(0, 1), (1, 2)] (by decide)⟩

/-- Witness for C6 at the reachable table `exMap`. -/
theorem reachable_count_and_distinct_witness :
    Reachable natE exMap ∧
    (exMap.items = exMap.buckets.flatten.length ∧
      ∀ bkt ∈ exMap.buckets, BucketOk natE bkt) :=
  ⟨exReach, reachable_count_and_distinct natE exMap exReach⟩

/-- Witness for C7 at the key `5` on a new `Nat`-to-`Nat` table. -/
theorem empty_table_behaves_as_absent_witness :
    bucketIdx natE (new : HashMap Nat Nat) 5 = none ∧
    get natE (new : HashMap Nat Nat) 5 = none ∧
    containsKey natE (new : HashMap Nat Nat) 5 = false ∧
    remove natE (new : HashMap Nat Nat) 5 = (new, none) :=
  empty_table_behaves_as_absent natE 5

/-- Witness for C8 at the concrete table `exMap`, with the insert clause
discharged at a concrete successful insert. -/
theorem bucket_count_only_grows_witness :
    ((resize natE exMap).buckets.length =
      if exMap.buckets.length = 0 then 1 else 2 * exMap.buckets.length) ∧
    exMap.buckets.length ≤ (resize natE exMap).buckets.length ∧
    insert natE exMap 1 7 = some (HashMap.mk [[(0, 42)], [(1, 7)]] 2, none) ∧
    exMap.buckets.length ≤ (HashMap.mk [[(0, 42)], [(1, 7)]] 2 :
      HashMap Nat Nat).buckets.length ∧
    (∀ k, ((remove natE exMap k).1).buckets.length = exMap.buckets.length) :=
  ⟨(bucket_count_only_grows natE exMap).1,
    (bucket_count_only_grows natE exMap).2.1, rfl,
    (bucket_count_only_grows natE exMap).2.2.1 1 7 _ none rfl,
    (bucket_count_only_grows natE exMap).2.2.2⟩

/-- Witness for C9 at the concrete table `exMap`. -/
theorem insert_never_panics_witness :
    (∃ b, bucketIdx natE
      (if exMap.buckets.isEmpty ∨ 3 * exMap.buckets.length / 4 < exMap.items
        then resize natE exMap else exMap) 3 = some b) ∧
    ∃ m' r, insert natE exMap 3 9 = some (m', r) :=
  insert_never_panics natE exMap 3 9

/-- Witness for C10 at the reachable table `exMap`. -/
theorem home_bucket_invariant_witness :
    Reachable natE exMap ∧
    ((∀ i < exMap.buckets.length, ∀ e ∈ exMap.buckets.getD i [],
      natE.hash e.1 % exMap.buckets.length = i) ∧
    (∀ (k v k0 : Nat), natE.beq k0 k = true → (k0, v) ∈ entries exMap →
      (get natE exMap k).isSome = true) ∧
    (∀ (k v k0 : Nat), natE.beq k0 k = true → (k0, v) ∈ entries exMap →
      ((remove natE exMap k).2).isSome = true)) :=
  ⟨exReach, home_bucket_invariant natE exMap exReach⟩

end Rehash
